import Mathlib

/-!
# The in-memory relay hint store (sdk/hints/memoryh/db.go)

A shallow embedding of `HintDB` and of its operations `Save`, `TopN`,
`GetDetailedScores` and `RelayEntry.Sum`, followed by theorems about them.

Modelling conventions
* The store is a value; an operation takes the store and returns the new store.
  The operations are run one after the other (the mutex is not modelled).
* `nostr.Now()` is an explicit argument `now` of every operation that reads the
  clock; one call reads one clock value.
* `int` and `int64` are 64 bits wide. Timestamps and serials are integers (`Int`);
  the arithmetic of `Sum` and of the sort comparator wraps at 64 bits (`wrap64`).
* The map `OrderedRelaysByPubKey` is a function from keys to optional values:
  `none` is an absent key.
* `hints.HintKey` indexes the array `Timestamps [4]nostr.Timestamp`; the
  categories are the four indices `0..3` (`Fin 4`).
* A run-time panic (index out of range, `make` with a capacity out of range) is the
  result `none` of an operation that can panic. The capacity check is the one of
  runtime.makeslice on a 64-bit target (linux/amd64): the capacity is not negative and
  the bytes asked for do not exceed runtime.maxAlloc `= 2^48`. Whether the machine holds the
  memory asked for is not modelled: within that limit an allocation succeeds.
-/

namespace Memoryh

/-- The type nostr.Timestamp (an int64 count of seconds). -/
abbrev Timestamp := Int

/-- The type hints.HintKey, restricted to the indices of the array `Timestamps`. -/
abbrev HintKey := Fin 4

/-- The struct RelayEntry: a relay serial and one timestamp per category. -/
structure RelayEntry where
  Relay : Int
  Timestamps : HintKey → Timestamp

/-- The struct HintDB without its mutex. -/
structure HintDB where
  RelayBySerial : List String
  OrderedRelaysByPubKey : String → Option (List RelayEntry)

/-- The constructor NewHintDB: an empty table and an empty map. -/
def NewHintDB : HintDB :=
  { RelayBySerial := [], OrderedRelaysByPubKey := fun _ => none }

/-- The library function slices.Index: the first position of `v` in `s`, if any
(the Go function returns -1 where this one returns `none`). -/
def slicesIndex (s : List String) (v : String) : Option Nat :=
  match s with
  | [] => none
  | x :: xs => if x = v then some 0 else (slicesIndex xs v).map (· + 1)

/-- The library function slices.IndexFunc: the first position whose element
satisfies `f`, if any (the Go function returns -1 where this one returns `none`). -/
def slicesIndexFunc {α : Type} (f : α → Bool) : (s : List α) → Option (Fin s.length)
  | [] => none
  | x :: xs => if f x then some ⟨0, Nat.succ_pos _⟩ else (slicesIndexFunc f xs).map Fin.succ

/-- Lines 34-38 of Save: the serial of `relay` and the table after interning it. -/
def intern (tbl : List String) (relay : String) : Int × List String :=
  match slicesIndex tbl relay with
  | none => ((tbl.length : Int), tbl ++ [relay])
  | some i => ((i : Int), tbl)

/-- The method HintDB.Save, run at clock reading `now`. -/
def Save (now : Timestamp) (db : HintDB) (pubkey relay : String) (key : HintKey)
    (ts : Timestamp) : HintDB :=
  let ts := if ts > now then now else ts
  let relayIndex := (intern db.RelayBySerial relay).1
  let tbl := (intern db.RelayBySerial relay).2
  let entries := (db.OrderedRelaysByPubKey pubkey).getD []
  match slicesIndexFunc (fun re => decide (re.Relay = relayIndex)) entries with
  | none =>
    let entry : RelayEntry :=
      { Relay := relayIndex, Timestamps := Function.update (fun _ => 0) key ts }
    { RelayBySerial := tbl
      OrderedRelaysByPubKey :=
        Function.update db.OrderedRelaysByPubKey pubkey (some (entries ++ [entry])) }
  | some entryIndex =>
    if (entries[entryIndex]).Timestamps key < ts then
      let entry : RelayEntry :=
        { Relay := (entries[entryIndex]).Relay
          Timestamps := Function.update (entries[entryIndex]).Timestamps key ts }
      { RelayBySerial := tbl
        OrderedRelaysByPubKey :=
          Function.update db.OrderedRelaysByPubKey pubkey (some (entries.set entryIndex entry)) }
    else
      { RelayBySerial := tbl, OrderedRelaysByPubKey := db.OrderedRelaysByPubKey }

/-- The entry that Save addresses for `(pubkey, relay)`: the first entry of the
pubkey whose serial is the serial Save resolves `relay` to. -/
def entryOf (db : HintDB) (pubkey relay : String) : Option RelayEntry :=
  ((db.OrderedRelaysByPubKey pubkey).getD []).find?
    (fun re => decide (re.Relay = (intern db.RelayBySerial relay).1))

/-- The timestamp stored for `(pubkey, relay, key)`, if the pair has an entry. -/
def storedTimestamp (db : HintDB) (pubkey relay : String) (key : HintKey) :
    Option Timestamp :=
  (entryOf db pubkey relay).map (fun re => re.Timestamps key)

/-- The index expression `db.RelayBySerial[re.Relay]`: `none` is the panic of an
index that is negative or not below the length. -/
def relayAt (tbl : List String) (i : Int) : Option String :=
  if i < 0 then none else tbl[i.toNat]?

/-- Two's complement wrap-around of a 64-bit signed integer. -/
def wrap64 (x : Int) : Int := (x + 2 ^ 63) % 2 ^ 64 - 2 ^ 63

/-- The method RelayEntry.Sum at clock reading `clock`. The argument `value` stands
for the floating-point expression of lines 145-147,
`int64(float64(HintKey(i).BasePoints()) * 10000000000 / math.Pow(float64(d), 1.3))`,
as a function of the category `i` and of `d = max(now-ts, 1)`; `BasePoints` is
declared outside this file. -/
def RelayEntry.Sum (value : HintKey → Int → Int) (clock : Timestamp) (re : RelayEntry) : Int :=
  let now := wrap64 (clock + 24 * 60 * 60)
  [(0 : HintKey), 1, 2, 3].foldl
    (fun sum i =>
      let ts := re.Timestamps i
      if ts = 0 then sum
      else wrap64 (sum + value i (max (wrap64 (now - ts)) 1)))
    0

/-- The inner loop of the library function insertionSortCmpFunc: `x = data[i]` is
swapped downwards while `cmp(data[j], data[j-1]) < 0`. The list is the already
sorted part `data[a..i-1]` read from its last element to its first, and so is the
result. -/
def insertDown {α : Type} (cmp : α → α → Int) (x : α) : List α → List α
  | [] => [x]
  | y :: ys => if cmp x y < 0 then y :: insertDown cmp x ys else x :: y :: ys

/-- The library function insertionSortCmpFunc (slices/zsortanyfunc.go). -/
def insertionSortCmpFunc {α : Type} (cmp : α → α → Int) (data : List α) : List α :=
  (data.foldl (fun sortedRev x => insertDown cmp x sortedRev) []).reverse

/-- The library function slices.SortFunc. It runs insertionSortCmpFunc on a slice of
at most 12 elements; on a longer slice the library's pattern-defeating quicksort
returns a sorted permutation as well, in which elements that compare equal may
stand in another order. -/
def slicesSortFunc {α : Type} (cmp : α → α → Int) (data : List α) : List α :=
  insertionSortCmpFunc cmp data

/-- The comparator of lines 77-79 and 114-116: `int(b.Sum() - a.Sum())`. -/
def cmpEntries (value : HintKey → Int → Int) (clock : Timestamp) (a b : RelayEntry) : Int :=
  wrap64 (b.Sum value clock - a.Sum value clock)

/-- The limit runtime.maxAlloc of the Go runtime on a 64-bit target (linux/amd64), in
bytes: runtime.makeslice panics when element size times capacity exceeds it. -/
def maxAlloc : Int := 2 ^ 48

/-- The size in bytes of a `string` value (a pointer and a length). -/
def stringSize : Int := 16

/-- The size in bytes of a hints.RelayScores value, from the three fields that line
122 fills: a string, four int64 timestamps and an int64 sum. -/
def relayScoresSize : Int := 56

/-- The loop of lines 81-86 of TopN; `i` is the loop index and `urls` the slice
built so far. -/
def topNLoop (tbl : List String) (n : Int) : Nat → List RelayEntry → List String →
    Option (List String)
  | _, [], urls => some urls
  | i, re :: rest, urls =>
    match relayAt tbl re.Relay with
    | none => none
    | some url =>
      if (i : Int) + 1 = n then some (urls ++ [url])
      else topNLoop tbl n (i + 1) rest (urls ++ [url])

/-- The method HintDB.TopN at clock reading `clock`: the returned slice and the
store after the call, or `none` for a panic. The first test is the panic of
`make([]string, 0, n)` on line 74 (makeslice: cap out of range), which runs before
the lookup of the pubkey. -/
def TopN (value : HintKey → Int → Int) (clock : Timestamp) (db : HintDB) (pubkey : String)
    (n : Int) : Option (List String × HintDB) :=
  if n < 0 ∨ maxAlloc < n * stringSize then none
  else
    match db.OrderedRelaysByPubKey pubkey with
    | none => some ([], db)
    | some entries =>
      let sorted := slicesSortFunc (cmpEntries value clock) entries
      let db1 : HintDB :=
        { RelayBySerial := db.RelayBySerial
          OrderedRelaysByPubKey := Function.update db.OrderedRelaysByPubKey pubkey (some sorted) }
      (topNLoop db.RelayBySerial n 0 sorted []).map (fun urls => (urls, db1))

/-- The struct hints.RelayScores, as GetDetailedScores fills it. -/
structure RelayScores where
  Relay : String
  Scores : HintKey → Timestamp
  Sum : Int

/-- The loop of lines 118-127 of GetDetailedScores. -/
def detailedLoop (value : HintKey → Int → Int) (clock : Timestamp) (tbl : List String)
    (n : Int) : Nat → List RelayEntry → List RelayScores → Option (List RelayScores)
  | _, [], result => some result
  | i, re :: rest, result =>
    if (i : Int) ≥ n then some result
    else
      match relayAt tbl re.Relay with
      | none => none
      | some url =>
        detailedLoop value clock tbl n (i + 1) rest
          (result ++ [{ Relay := url, Scores := re.Timestamps, Sum := re.Sum value clock }])

/-- The method HintDB.GetDetailedScores at clock reading `clock`: the returned
slice and the store after the call, or `none` for a panic. The first test is the
panic of `make([]hints.RelayScores, 0, n)` on line 111 (makeslice: cap out of range),
which runs before the lookup of the pubkey. -/
def GetDetailedScores (value : HintKey → Int → Int) (clock : Timestamp) (db : HintDB)
    (pubkey : String) (n : Int) : Option (List RelayScores × HintDB) :=
  if n < 0 ∨ maxAlloc < n * relayScoresSize then none
  else
    match db.OrderedRelaysByPubKey pubkey with
    | none => some ([], db)
    | some entries =>
      let sorted := slicesSortFunc (cmpEntries value clock) entries
      let db1 : HintDB :=
        { RelayBySerial := db.RelayBySerial
          OrderedRelaysByPubKey := Function.update db.OrderedRelaysByPubKey pubkey (some sorted) }
      (detailedLoop value clock db.RelayBySerial n 0 sorted []).map (fun result => (result, db1))

/-- The store invariants of the data model: the table has no string twice, every
serial of an entry is an index of the table, and a pubkey has at most one entry
per serial. -/
def StoreInv (db : HintDB) : Prop :=
  db.RelayBySerial.Nodup ∧
  ∀ pubkey entries, db.OrderedRelaysByPubKey pubkey = some entries →
    (entries.map RelayEntry.Relay).Nodup ∧
    ∀ e ∈ entries, 0 ≤ e.Relay ∧ e.Relay < db.RelayBySerial.length

/-- No stored timestamp exceeds the clock reading `now`. -/
def TimestampsAtMost (now : Timestamp) (db : HintDB) : Prop :=
  ∀ pubkey entries, db.OrderedRelaysByPubKey pubkey = some entries →
    ∀ e ∈ entries, ∀ key, e.Timestamps key ≤ now

/-- The values of the floating-point expression of Sum stay well inside the int64
range, so that neither the sum of four of them nor the difference of two sums
overflows. The expression is at most `|BasePoints| * 10^10` in absolute value, so
this holds for base points below `10^8`. -/
def ValueBounded (value : HintKey → Int → Int) : Prop :=
  ∀ i d, 1 ≤ d → -2 ^ 60 < value i d ∧ value i d < 2 ^ 60

/-- A store holding one entry: pubkey "alice", relay "wss://relay.a", category 0
seen at time 500. -/
def aliceStore : HintDB :=
  { RelayBySerial := ["wss://relay.a"]
    OrderedRelaysByPubKey := fun pubkey =>
      if pubkey = "alice" then some [{ Relay := 0, Timestamps := Function.update (fun _ => 0) 0 500 }]
      else none }

/-- One call of Save: the clock reading of the call and its four arguments. -/
structure SaveCall where
  now : Timestamp
  pubkey : String
  relay : String
  key : HintKey
  ts : Timestamp

/-- A sequence of Save calls, run in order from the store `db`. -/
def runSaves (db : HintDB) (calls : List SaveCall) : HintDB :=
  calls.foldl (fun d c => Save c.now d c.pubkey c.relay c.key c.ts) db

/-- The distinct relay strings that the calls record for `pubkey`. -/
def recordedRelays (calls : List SaveCall) (pubkey : String) : List String :=
  ((calls.filter (fun c => decide (c.pubkey = pubkey))).map SaveCall.relay).dedup

/-- The serials of the entries of a pubkey, in order. -/
def serialsOf (db : HintDB) (pubkey : String) : List Int :=
  ((db.OrderedRelaysByPubKey pubkey).getD []).map RelayEntry.Relay

/-- The pairs (pubkey, relay string) that the entries of a store stand for are
exactly the pairs of the list `S`. -/
def Tracks (db : HintDB) (S : List (String × String)) : Prop :=
  ∀ p r, (∃ i ∈ serialsOf db p, relayAt db.RelayBySerial i = some r) ↔ (p, r) ∈ S

/-- The loop of an integer root: the largest `v` below `2^bits`, built from its top
bit down, with `v^10 * d^13 ≤ n^10`, that is `v ≤ n / d^1.3`. -/
def rootLoop (n d : Nat) : Nat → Nat → Nat
  | 0, v => v
  | b + 1, v =>
    if (v + 2 ^ b) ^ 10 * d ^ 13 ≤ n ^ 10 then rootLoop n d b (v + 2 ^ b)
    else rootLoop n d b v

/-- An exact-arithmetic reading of the expression of lines 145-147 for base points
`base` (hints.HintKey.BasePoints is declared outside this file): the integer part of
`base i * 10^10 / d^1.3`, rounded towards zero. It is not the float64 expression of
the code: where the quotient is within the rounding error of an integer the two
differ (for base 8 and `d = 1024` this gives 9765625, float64 gives 9765624). It
serves as a concrete instance of the argument `value` of Sum in closed examples, at
inputs where it agrees with float64: base 350 with `d` one of 86400, 86500, 86600,
1700086200, 1700086300. -/
def exactValue (base : HintKey → Int) (i : HintKey) (d : Int) : Int :=
  let q : Int := rootLoop ((base i).natAbs * 10 ^ 10) d.toNat 63 0
  if base i < 0 then -q else q

/-- The scenario of the specification: from the empty store, "alice" is recorded on
"wss://relay.a" at time 100 and then on "wss://relay.b" at time 200, in the same
category `X`, both calls at clock reading `now`. -/
def scenario (X : HintKey) (now : Timestamp) : HintDB :=
  Save now (Save now NewHintDB "alice" "wss://relay.a" X 100) "alice" "wss://relay.b" X 200

/-- A sequence of Save calls that interleaves two pubkeys and three relays. -/
def exampleCalls : List SaveCall :=
  [{ now := 1000, pubkey := "alice", relay := "wss://relay.a", key := 0, ts := 100 },
   { now := 1000, pubkey := "bob", relay := "wss://relay.b", key := 1, ts := 200 },
   { now := 1001, pubkey := "alice", relay := "wss://relay.b", key := 2, ts := 300 },
   { now := 1002, pubkey := "alice", relay := "wss://relay.a", key := 0, ts := 400 },
   { now := 1003, pubkey := "bob", relay := "wss://relay.c", key := 3, ts := 500 }]

/-- The stores that a program reaches from the empty store by sequential calls of
Save, TopN and GetDetailedScores; a query step is a call that returns. Each call
reads its own clock. -/
inductive Reachable (value : HintKey → Int → Int) : HintDB → Prop
  | empty : Reachable value NewHintDB
  | save (now : Timestamp) (db : HintDB) (pubkey relay : String) (key : HintKey)
      (ts : Timestamp) :
      Reachable value db → Reachable value (Save now db pubkey relay key ts)
  | topN (clock : Timestamp) (db : HintDB) (pubkey : String) (n : Int)
      (urls : List String) (db1 : HintDB) :
      Reachable value db → TopN value clock db pubkey n = some (urls, db1) →
      Reachable value db1
  | detailed (clock : Timestamp) (db : HintDB) (pubkey : String) (n : Int)
      (result : List RelayScores) (db1 : HintDB) :
      Reachable value db → GetDetailedScores value clock db pubkey n = some (result, db1) →
      Reachable value db1

/-- The store that a returning query leaves: the entries of the pubkey, if it is
known, are replaced by the sorted entries (lines 75-79 and 112-116). -/
def sortStored (value : HintKey → Int → Int) (clock : Timestamp) (db : HintDB)
    (pubkey : String) : HintDB :=
  match db.OrderedRelaysByPubKey pubkey with
  | none => db
  | some entries =>
    { RelayBySerial := db.RelayBySerial
      OrderedRelaysByPubKey := Function.update db.OrderedRelaysByPubKey pubkey
        (some (slicesSortFunc (cmpEntries value clock) entries)) }

/-- Save with the category given as a Go `int`: `none` is the panic of the index
expression `Timestamps[key]` for a category outside `0..3`. -/
def SaveInt (now : Timestamp) (db : HintDB) (pubkey relay : String) (key : Int)
    (ts : Timestamp) : Option HintDB :=
  if h : 0 ≤ key ∧ key < 4 then
    some (Save now db pubkey relay ⟨key.toNat, by omega⟩ ts)
  else none

/-- Every timestamp slot is either zero, the mark of a category never observed, or at
most `T`. -/
def StampsAtMost (T : Timestamp) (db : HintDB) : Prop :=
  ∀ pubkey entries, db.OrderedRelaysByPubKey pubkey = some entries →
    ∀ e ∈ entries, ∀ key, e.Timestamps key = 0 ∨ e.Timestamps key ≤ T

/-- The record that line 122 builds from an entry whose relay string is `url`. -/
def scoresOf (value : HintKey → Int → Int) (clock : Timestamp) (url : String)
    (re : RelayEntry) : RelayScores :=
  { Relay := url, Scores := re.Timestamps, Sum := re.Sum value clock }

/-! ## Lemmas on the library functions -/

theorem slicesIndex_lt {s : List String} {v : String} {i : Nat}
    (h : slicesIndex s v = some i) : i < s.length := by
  induction s generalizing i with
  | nil => simp [slicesIndex] at h
  | cons x xs ih =>
    unfold slicesIndex at h
    split at h
    · simp at h; subst h; simp
    · cases hx : slicesIndex xs v with
      | none => simp [hx] at h
      | some j =>
        simp [hx] at h
        subst h
        have := ih hx
        simp; omega

theorem slicesIndex_append_self {s : List String} {v : String}
    (h : slicesIndex s v = none) : slicesIndex (s ++ [v]) v = some s.length := by
  induction s with
  | nil => simp [slicesIndex]
  | cons x xs ih =>
    unfold slicesIndex at h
    split at h
    · simp at h
    · rename_i hx
      have hn : slicesIndex xs v = none := by
        cases hxs : slicesIndex xs v with
        | none => rfl
        | some j => simp [hxs] at h
      simp [slicesIndex, hx, ih hn]

theorem slicesIndex_none_iff {s : List String} {v : String} :
    slicesIndex s v = none ↔ v ∉ s := by
  induction s with
  | nil => simp [slicesIndex]
  | cons x xs ih =>
    unfold slicesIndex
    by_cases hx : x = v
    · simp [hx]
    · have hx2 : ¬ v = x := fun h => hx h.symm
      simp [hx, hx2, ih]

theorem slicesIndex_some_get {s : List String} {v : String} {i : Nat}
    (h : slicesIndex s v = some i) : s[i]? = some v := by
  induction s generalizing i with
  | nil => simp [slicesIndex] at h
  | cons x xs ih =>
    unfold slicesIndex at h
    split at h
    · rename_i hx
      simp at h; subst h; simp [hx]
    · cases hxs : slicesIndex xs v with
      | none => simp [hxs] at h
      | some j =>
        simp [hxs] at h
        subst h
        simpa using ih hxs

theorem slicesIndexFunc_none_iff {α : Type} {f : α → Bool} {s : List α} :
    slicesIndexFunc f s = none ↔ s.find? f = none := by
  induction s with
  | nil => simp [slicesIndexFunc]
  | cons x xs ih =>
    unfold slicesIndexFunc
    by_cases hx : f x = true
    · simp [hx]
    · simp [hx, List.find?_cons]
      simpa using ih

theorem slicesIndexFunc_some_find {α : Type} {f : α → Bool} {s : List α}
    {i : Fin s.length} (h : slicesIndexFunc f s = some i) : s.find? f = some s[i] := by
  induction s with
  | nil => exact i.elim0
  | cons x xs ih =>
    unfold slicesIndexFunc at h
    by_cases hx : f x = true
    · simp [hx] at h
      subst h
      simp [List.find?_cons, hx]
    · simp [hx] at h
      obtain ⟨j, hj, rfl⟩ := h
      simp [List.find?_cons, hx]
      simpa using ih hj

theorem slicesIndexFunc_of_find {α : Type} {f : α → Bool} {s : List α} {e : α}
    (h : s.find? f = some e) : ∃ i, slicesIndexFunc f s = some i ∧ s[i] = e := by
  cases hi : slicesIndexFunc f s with
  | none => rw [slicesIndexFunc_none_iff.mp hi] at h; simp at h
  | some i =>
    refine ⟨i, rfl, ?_⟩
    rw [slicesIndexFunc_some_find hi] at h
    simpa using h

theorem find_set_first {α : Type} {f : α → Bool} {s : List α} {i : Fin s.length} {e : α}
    (h : slicesIndexFunc f s = some i) (he : f e = true) :
    (s.set i e).find? f = some e := by
  induction s with
  | nil => exact i.elim0
  | cons x xs ih =>
    unfold slicesIndexFunc at h
    by_cases hx : f x = true
    · simp [hx] at h
      subst h
      simp [List.find?_cons, he]
    · simp [hx] at h
      obtain ⟨j, hj, rfl⟩ := h
      simp [List.find?_cons, hx]
      simpa using ih hj

/-! ## Save -/

/-- Interning a relay a second time finds it and changes nothing. -/
theorem intern_idem (tbl : List String) (relay : String) :
    intern (intern tbl relay).2 relay = intern tbl relay := by
  unfold intern
  cases h : slicesIndex tbl relay with
  | none => simp [slicesIndex_append_self h]
  | some i => simp [h]

theorem intern_snd_fst (tbl : List String) (relay : String) :
    (intern (intern tbl relay).2 relay).1 = (intern tbl relay).1 := by
  rw [intern_idem]

theorem intern_snd_snd (tbl : List String) (relay : String) :
    (intern (intern tbl relay).2 relay).2 = (intern tbl relay).2 := by
  rw [intern_idem]

/-- The timestamp that Save writes: the given one, clamped to the clock. -/
theorem clamp_eq_min (now ts : Int) : (if ts > now then now else ts) = min ts now := by
  split
  · rw [min_eq_right]; omega
  · rw [min_eq_left]; omega

/-- Save with the clamp written as a minimum. -/
theorem Save_eq (now : Timestamp) (db : HintDB) (pubkey relay : String)
    (key : HintKey) (ts : Timestamp) :
    Save now db pubkey relay key ts =
      match slicesIndexFunc (fun re => decide (re.Relay = (intern db.RelayBySerial relay).1))
          ((db.OrderedRelaysByPubKey pubkey).getD []) with
      | none =>
        { RelayBySerial := (intern db.RelayBySerial relay).2
          OrderedRelaysByPubKey :=
            Function.update db.OrderedRelaysByPubKey pubkey
              (some ((db.OrderedRelaysByPubKey pubkey).getD [] ++
                [{ Relay := (intern db.RelayBySerial relay).1
                   Timestamps := Function.update (fun _ => 0) key (min ts now) }])) }
      | some i =>
        if (((db.OrderedRelaysByPubKey pubkey).getD [])[i]).Timestamps key < min ts now then
          { RelayBySerial := (intern db.RelayBySerial relay).2
            OrderedRelaysByPubKey :=
              Function.update db.OrderedRelaysByPubKey pubkey
                (some (((db.OrderedRelaysByPubKey pubkey).getD []).set i
                  { Relay := (((db.OrderedRelaysByPubKey pubkey).getD [])[i]).Relay
                    Timestamps := Function.update
                      (((db.OrderedRelaysByPubKey pubkey).getD [])[i]).Timestamps key
                      (min ts now) })) }
        else
          { RelayBySerial := (intern db.RelayBySerial relay).2
            OrderedRelaysByPubKey := db.OrderedRelaysByPubKey } := by
  unfold Save
  simp only [clamp_eq_min]
  split
  · rename_i h
    simp only [h]
  · rename_i i h
    simp only [h]

theorem Save_RelayBySerial (now : Timestamp) (db : HintDB) (pubkey relay : String)
    (key : HintKey) (ts : Timestamp) :
    (Save now db pubkey relay key ts).RelayBySerial = (intern db.RelayBySerial relay).2 := by
  rw [Save_eq]
  split
  · rfl
  · split <;> rfl

theorem Save_other (now : Timestamp) (db : HintDB) (pubkey relay : String)
    (key : HintKey) (ts : Timestamp) (q : String) (hq : q ≠ pubkey) :
    (Save now db pubkey relay key ts).OrderedRelaysByPubKey q = db.OrderedRelaysByPubKey q := by
  rw [Save_eq]
  split
  · simp [Function.update, hq]
  · split
    · simp [Function.update, hq]
    · rfl

/-- What Save does to the entry it addresses. -/
theorem entryOf_Save (now : Timestamp) (db : HintDB) (pubkey relay : String)
    (key : HintKey) (ts : Timestamp) :
    entryOf (Save now db pubkey relay key ts) pubkey relay =
      match entryOf db pubkey relay with
      | none => some { Relay := (intern db.RelayBySerial relay).1
                       Timestamps := Function.update (fun _ => 0) key (min ts now) }
      | some e =>
        if e.Timestamps key < min ts now then
          some { Relay := e.Relay, Timestamps := Function.update e.Timestamps key (min ts now) }
        else some e := by
  unfold entryOf
  rw [Save_RelayBySerial, intern_snd_fst, Save_eq]
  cases hi : slicesIndexFunc (fun re => decide (re.Relay = (intern db.RelayBySerial relay).1))
      ((db.OrderedRelaysByPubKey pubkey).getD []) with
  | none =>
    have hf := slicesIndexFunc_none_iff.mp hi
    simp [hf, List.find?_append]
  | some i =>
    have hf := slicesIndexFunc_some_find hi
    have hrel := List.find?_some hf
    rw [hf]
    simp only
    split
    · simp only [Function.update_same, Option.getD_some]
      exact find_set_first hi (by simpa using hrel)
    · exact hf

theorem storedTimestamp_Save (now : Timestamp) (db : HintDB) (pubkey relay : String)
    (key : HintKey) (ts : Timestamp) :
    storedTimestamp (Save now db pubkey relay key ts) pubkey relay key =
      match storedTimestamp db pubkey relay key with
      | none => some (min ts now)
      | some s => some (max s (min ts now)) := by
  unfold storedTimestamp
  rw [entryOf_Save]
  cases h : entryOf db pubkey relay with
  | none => simp
  | some e =>
    simp only [Option.map_some']
    split
    · rename_i hlt
      simp [max_eq_right (le_of_lt hlt)]
    · rename_i hlt
      simp [max_eq_left (not_lt.mp hlt)]

/-- A Save that finds the relay interned and its entry at least as recent
returns the store it was given. -/
theorem Save_eq_self (now : Timestamp) (db : HintDB) (pubkey relay : String)
    (key : HintKey) (ts : Timestamp) (e : RelayEntry)
    (htbl : (intern db.RelayBySerial relay).2 = db.RelayBySerial)
    (he : entryOf db pubkey relay = some e)
    (hstale : min ts now ≤ e.Timestamps key) :
    Save now db pubkey relay key ts = db := by
  unfold entryOf at he
  obtain ⟨i, hi, hie⟩ := slicesIndexFunc_of_find he
  rw [Save_eq, hi]
  simp only [hie, htbl]
  rw [if_neg (not_lt.mpr hstale)]

theorem entryOf_mem {db : HintDB} {pubkey relay : String} {e : RelayEntry}
    (h : entryOf db pubkey relay = some e) :
    ∃ entries, db.OrderedRelaysByPubKey pubkey = some entries ∧ e ∈ entries
      ∧ e.Relay = (intern db.RelayBySerial relay).1 := by
  unfold entryOf at h
  cases hm : db.OrderedRelaysByPubKey pubkey with
  | none => simp [hm] at h
  | some entries =>
    rw [hm] at h
    refine ⟨entries, rfl, List.mem_of_find?_eq_some h, ?_⟩
    simpa using List.find?_some h

theorem entryOf_Save_ge (now : Timestamp) (db : HintDB) (pubkey relay : String)
    (key : HintKey) (ts : Timestamp) :
    ∃ e, entryOf (Save now db pubkey relay key ts) pubkey relay = some e
      ∧ min ts now ≤ e.Timestamps key := by
  rw [entryOf_Save]
  cases h : entryOf db pubkey relay with
  | none => exact ⟨_, rfl, by simp⟩
  | some e =>
    simp only
    split
    · exact ⟨_, rfl, by simp⟩
    · rename_i hlt
      exact ⟨e, rfl, not_lt.mp hlt⟩

theorem relayAt_some {tbl : List String} {i : Int} {relay : String}
    (h : relayAt tbl i = some relay) : 0 ≤ i ∧ tbl[i.toNat]? = some relay := by
  unfold relayAt at h
  split at h
  · simp at h
  · exact ⟨by omega, h⟩

theorem slicesIndex_of_nodup {tbl : List String} {relay : String} {j : Nat}
    (hnd : tbl.Nodup) (hj : tbl[j]? = some relay) : slicesIndex tbl relay = some j := by
  cases hi : slicesIndex tbl relay with
  | none =>
    have := slicesIndex_none_iff.mp hi
    exact absurd (List.getElem?_mem hj) this
  | some i =>
    have h1 := slicesIndex_some_get hi
    have := List.getElem?_inj (slicesIndex_lt hi) hnd (h1.trans hj.symm)
    rw [this]

theorem intern_of_relayAt {tbl : List String} {i : Int} {relay : String}
    (hnd : tbl.Nodup) (h : relayAt tbl i = some relay) : intern tbl relay = (i, tbl) := by
  obtain ⟨h0, hget⟩ := relayAt_some h
  unfold intern
  rw [slicesIndex_of_nodup hnd hget]
  simp [Int.toNat_of_nonneg h0]

/-! ## Claims on Save -/

/-- C1 (monotonic timestamp policy of Save). In any store where the entry that Save
addresses for `(pubkey, relay)` is absent or has a zero slot for the category, saving
a positive timestamp `t1` and then a timestamp `t2`, neither in the future of the
clock read by its call, leaves `max t1 t2` stored for that pubkey, relay and
category. -/
theorem Save_monotonic_timestamp (now1 now2 : Timestamp) (db : HintDB)
    (pubkey relay : String) (key : HintKey) (t1 t2 : Timestamp)
    (hfresh : storedTimestamp db pubkey relay key = none
      ∨ storedTimestamp db pubkey relay key = some 0)
    (h1 : 0 < t1) (h1n : t1 ≤ now1) (h2n : t2 ≤ now2) :
    storedTimestamp
        (Save now2 (Save now1 db pubkey relay key t1) pubkey relay key t2)
        pubkey relay key
      = some (max t1 t2) := by
  rw [storedTimestamp_Save, storedTimestamp_Save, min_eq_left h1n, min_eq_left h2n]
  rcases hfresh with h | h
  · rw [h]
  · rw [h]
    simp only [Option.some.injEq]
    rw [max_eq_right (le_of_lt h1)]

/-- The scenario of the specification: 500 then 300 keeps 500. -/
theorem Save_monotonic_timestamp_witness :
    storedTimestamp
        (Save 1000 (Save 1000 NewHintDB "alice" "wss://relay.a" 0 500)
          "alice" "wss://relay.a" 0 300)
        "alice" "wss://relay.a" 0
      = some (max 500 300) :=
  Save_monotonic_timestamp 1000 1000 NewHintDB "alice" "wss://relay.a" 0 500 300
    (Or.inl rfl) (by decide) (by decide) (by decide)

/-- C2 (stale writes are dropped). In a store that satisfies the store invariants,
if the pubkey has an entry whose serial names the relay in the table and whose
timestamp for the category is at least the clamped new timestamp, Save returns the
very same store: same relay table, same evidence sequence for every pubkey. -/
theorem Save_stale_noop (now : Timestamp) (db : HintDB) (pubkey relay : String)
    (key : HintKey) (ts : Timestamp) (entries : List RelayEntry) (e : RelayEntry)
    (hinv : StoreInv db)
    (hentries : db.OrderedRelaysByPubKey pubkey = some entries) (hmem : e ∈ entries)
    (hrelay : relayAt db.RelayBySerial e.Relay = some relay)
    (hstale : (if ts > now then now else ts) ≤ e.Timestamps key) :
    Save now db pubkey relay key ts = db := by
  have hint := intern_of_relayAt hinv.1 hrelay
  rw [clamp_eq_min] at hstale
  have hfind : entryOf db pubkey relay = some e := by
    unfold entryOf
    rw [hentries, hint]
    simp only [Option.getD_some]
    cases hf : List.find? (fun re => decide (re.Relay = e.Relay)) entries with
    | none =>
      rw [List.find?_eq_none] at hf
      have := hf e hmem
      simp at this
    | some e2 =>
      have hm2 := List.mem_of_find?_eq_some hf
      have hr2 : e2.Relay = e.Relay := by simpa using List.find?_some hf
      rw [List.inj_on_of_nodup_map (hinv.2 pubkey entries hentries).1 hm2 hmem hr2]
  exact Save_eq_self now db pubkey relay key ts e (by rw [hint]) hfind hstale

theorem aliceStore_inv : StoreInv aliceStore := by
  refine ⟨by simp [aliceStore], ?_⟩
  intro pubkey entries h
  unfold aliceStore at h
  simp only at h
  split at h
  · simp only [Option.some.injEq] at h
    subst h
    simp [aliceStore]
  · simp at h

/-- An older timestamp (300 against the stored 500) changes nothing. -/
theorem Save_stale_noop_witness :
    Save 1000 aliceStore "alice" "wss://relay.a" 0 300 = aliceStore :=
  Save_stale_noop 1000 aliceStore "alice" "wss://relay.a" 0 300
    [{ Relay := 0, Timestamps := Function.update (fun _ => 0) 0 500 }]
    { Relay := 0, Timestamps := Function.update (fun _ => 0) 0 500 }
    aliceStore_inv rfl (List.mem_singleton.mpr rfl) rfl (by decide)

/-- C3 (future clamp). In a store none of whose timestamps exceeds the clock reading
`now`, a Save run at `now` with a timestamp strictly greater than `now` leaves `now`
stored for that pubkey, relay and category. -/
theorem Save_future_clamp (now : Timestamp) (db : HintDB) (pubkey relay : String)
    (key : HintKey) (ts : Timestamp)
    (hstored : TimestampsAtMost now db) (hts : now < ts) :
    storedTimestamp (Save now db pubkey relay key ts) pubkey relay key = some now := by
  rw [storedTimestamp_Save, min_eq_right (le_of_lt hts)]
  cases h : storedTimestamp db pubkey relay key with
  | none => rfl
  | some s =>
    unfold storedTimestamp at h
    cases he : entryOf db pubkey relay with
    | none => simp [he] at h
    | some e =>
      obtain ⟨entries, hm, hmem, _⟩ := entryOf_mem he
      simp [he] at h
      subst h
      simp only [Option.some.injEq]
      exact max_eq_right (hstored pubkey entries hm e hmem key)

/-- A timestamp of 5000 saved at clock 1000 is stored as 1000. -/
theorem Save_future_clamp_witness :
    storedTimestamp (Save 1000 NewHintDB "alice" "wss://relay.a" 2 5000)
        "alice" "wss://relay.a" 2
      = some 1000 :=
  Save_future_clamp 1000 NewHintDB "alice" "wss://relay.a" 2 5000
    (by intro pk es h; simp [NewHintDB] at h) (by decide)

/-- C4, as the code behaves: with the clock an explicit input, repeating a Save
returns the store of the first Save whenever the timestamp is not in the future of
the first clock reading, or the second clock reading is not later than the first. -/
theorem Save_twice (now1 now2 : Timestamp) (db : HintDB) (pubkey relay : String)
    (key : HintKey) (ts : Timestamp)
    (hpast : ts ≤ now1 ∨ now2 ≤ now1) :
    Save now2 (Save now1 db pubkey relay key ts) pubkey relay key ts
      = Save now1 db pubkey relay key ts := by
  obtain ⟨e, he, hge⟩ := entryOf_Save_ge now1 db pubkey relay key ts
  apply Save_eq_self now2 _ pubkey relay key ts e
  · rw [Save_RelayBySerial, intern_snd_snd]
  · exact he
  · refine le_trans ?_ hge
    rcases hpast with h | h
    · rw [min_eq_left h]; exact min_le_left _ _
    · exact le_min (min_le_left _ _) (le_trans (min_le_right _ _) h)

/-- Saving timestamp 100 at clock 500 and again at clock 600 equals saving it once. -/
theorem Save_twice_witness :
    Save 600 (Save 500 NewHintDB "alice" "wss://relay.a" 0 100) "alice" "wss://relay.a" 0 100
      = Save 500 NewHintDB "alice" "wss://relay.a" 0 100 :=
  Save_twice 500 600 NewHintDB "alice" "wss://relay.a" 0 100 (Or.inl (by decide))

/-- C4 fails as stated: a timestamp of 1000 saved at clock 500 is stored as 500, and
the same Save at clock 600 raises the stored timestamp to 600, so two Saves do not
leave the store of one Save. -/
theorem repeated_future_Save_differs :
    Save 600 (Save 500 NewHintDB "alice" "wss://relay.a" 0 1000) "alice" "wss://relay.a" 0 1000
      ≠ Save 500 NewHintDB "alice" "wss://relay.a" 0 1000 := by
  intro h
  have h2 := congrArg (fun d => storedTimestamp d "alice" "wss://relay.a" 0) h
  simp only [storedTimestamp_Save] at h2
  have h3 : storedTimestamp NewHintDB "alice" "wss://relay.a" 0 = none := rfl
  rw [h3] at h2
  revert h2
  decide

/-! ## Scores and the sort -/

theorem wrap64_of_fits {x : Int} (h1 : -2 ^ 63 ≤ x) (h2 : x < 2 ^ 63) : wrap64 x = x := by
  unfold wrap64
  norm_num at h1 h2 ⊢
  omega

theorem sumStep_bound (value : HintKey → Int → Int) (hv : ValueBounded value)
    (now : Int) (re : RelayEntry) (i : HintKey) (sum B : Int)
    (hB : 0 ≤ B) (hB2 : B ≤ 3 * 2 ^ 60) (h1 : -B ≤ sum) (h2 : sum ≤ B) :
    -(B + (2 ^ 60 - 1)) ≤ (if re.Timestamps i = 0 then sum
        else wrap64 (sum + value i (max (wrap64 (now - re.Timestamps i)) 1)))
    ∧ (if re.Timestamps i = 0 then sum
        else wrap64 (sum + value i (max (wrap64 (now - re.Timestamps i)) 1))) ≤ B + (2 ^ 60 - 1) := by
  have hd : (1 : Int) ≤ max (wrap64 (now - re.Timestamps i)) 1 := le_max_right _ _
  obtain ⟨hv1, hv2⟩ := hv i _ hd
  split
  · norm_num at *; omega
  · rw [wrap64_of_fits (by norm_num at *; omega) (by norm_num at *; omega)]
    norm_num at *; omega

theorem Sum_bound (value : HintKey → Int → Int) (hv : ValueBounded value)
    (clock : Timestamp) (re : RelayEntry) :
    -2 ^ 62 < re.Sum value clock ∧ re.Sum value clock < 2 ^ 62 := by
  unfold RelayEntry.Sum
  simp only [List.foldl]
  have s1 := sumStep_bound value hv (wrap64 (clock + 24 * 60 * 60)) re 0 0 0
    (by norm_num) (by norm_num) (by norm_num) (by norm_num)
  have s2 := sumStep_bound value hv (wrap64 (clock + 24 * 60 * 60)) re 1 _ (0 + (2 ^ 60 - 1))
    (by norm_num) (by norm_num) s1.1 s1.2
  have s3 := sumStep_bound value hv (wrap64 (clock + 24 * 60 * 60)) re 2 _ (0 + (2 ^ 60 - 1) + (2 ^ 60 - 1))
    (by norm_num) (by norm_num) s2.1 s2.2
  have s4 := sumStep_bound value hv (wrap64 (clock + 24 * 60 * 60)) re 3 _
    (0 + (2 ^ 60 - 1) + (2 ^ 60 - 1) + (2 ^ 60 - 1)) (by norm_num) (by norm_num) s3.1 s3.2
  constructor
  · refine lt_of_lt_of_le ?_ s4.1; norm_num
  · refine lt_of_le_of_lt s4.2 ?_; norm_num

theorem cmpEntries_neg_iff (value : HintKey → Int → Int) (hv : ValueBounded value)
    (clock : Timestamp) (a b : RelayEntry) :
    cmpEntries value clock a b < 0 ↔ b.Sum value clock < a.Sum value clock := by
  have ha := Sum_bound value hv clock a
  have hb := Sum_bound value hv clock b
  unfold cmpEntries
  rw [wrap64_of_fits (by norm_num at *; omega) (by norm_num at *; omega)]
  omega

theorem insertDown_perm {α : Type} (cmp : α → α → Int) (x : α) (l : List α) :
    (insertDown cmp x l).Perm (x :: l) := by
  induction l with
  | nil => exact List.Perm.refl _
  | cons y ys ih =>
    unfold insertDown
    split
    · exact (List.Perm.cons y ih).trans (List.Perm.swap x y ys)
    · exact List.Perm.refl _

theorem foldl_insertDown_perm {α : Type} (cmp : α → α → Int) (data acc : List α) :
    (data.foldl (fun sortedRev x => insertDown cmp x sortedRev) acc).Perm (data ++ acc) := by
  induction data generalizing acc with
  | nil => exact List.Perm.refl _
  | cons x xs ih =>
    simp only [List.foldl_cons]
    refine (ih _).trans ?_
    refine (List.Perm.append_left xs (insertDown_perm cmp x acc)).trans ?_
    simp

theorem slicesSortFunc_perm {α : Type} (cmp : α → α → Int) (data : List α) :
    (slicesSortFunc cmp data).Perm data := by
  unfold slicesSortFunc insertionSortCmpFunc
  refine (List.reverse_perm _).trans ?_
  simpa using foldl_insertDown_perm cmp data []

theorem insertDown_sorted {α : Type} (cmp : α → α → Int) (key : α → Int)
    (hcmp : ∀ a b, cmp a b < 0 ↔ key b < key a) (x : α) (l : List α)
    (h : l.Pairwise (fun a b => key a ≤ key b)) :
    (insertDown cmp x l).Pairwise (fun a b => key a ≤ key b) := by
  induction l with
  | nil => simp [insertDown]
  | cons y ys ih =>
    rw [List.pairwise_cons] at h
    unfold insertDown
    split
    · rename_i hlt
      rw [hcmp] at hlt
      rw [List.pairwise_cons]
      refine ⟨?_, ih h.2⟩
      intro z hz
      have hz2 := (List.Perm.mem_iff (insertDown_perm cmp x ys)).mp hz
      simp only [List.mem_cons] at hz2
      rcases hz2 with rfl | hz2
      · exact le_of_lt hlt
      · exact h.1 z hz2
    · rename_i hlt
      rw [hcmp, not_lt] at hlt
      rw [List.pairwise_cons, List.pairwise_cons]
      refine ⟨?_, h⟩
      intro z hz
      simp only [List.mem_cons] at hz
      rcases hz with rfl | hz
      · exact hlt
      · exact le_trans hlt (h.1 z hz)

theorem foldl_insertDown_sorted {α : Type} (cmp : α → α → Int) (key : α → Int)
    (hcmp : ∀ a b, cmp a b < 0 ↔ key b < key a) (data acc : List α)
    (h : acc.Pairwise (fun a b => key a ≤ key b)) :
    (data.foldl (fun sortedRev x => insertDown cmp x sortedRev) acc).Pairwise
      (fun a b => key a ≤ key b) := by
  induction data generalizing acc with
  | nil => exact h
  | cons x xs ih =>
    simp only [List.foldl_cons]
    exact ih _ (insertDown_sorted cmp key hcmp x acc h)

/-- The sort puts the elements in non-increasing order of `key` when the comparator
is negative exactly for a strictly greater key. -/
theorem slicesSortFunc_sorted {α : Type} (cmp : α → α → Int) (key : α → Int)
    (hcmp : ∀ a b, cmp a b < 0 ↔ key b < key a) (data : List α) :
    (slicesSortFunc cmp data).Pairwise (fun a b => key b ≤ key a) := by
  unfold slicesSortFunc insertionSortCmpFunc
  rw [List.pairwise_reverse]
  exact foldl_insertDown_sorted cmp key hcmp data [] List.Pairwise.nil

theorem sort_pair (cmp : RelayEntry → RelayEntry → Int) (a b : RelayEntry) :
    slicesSortFunc cmp [a, b] = if cmp b a < 0 then [b, a] else [a, b] := by
  unfold slicesSortFunc insertionSortCmpFunc
  simp only [List.foldl_cons, List.foldl_nil, insertDown]
  split <;> rfl

/-! ## The loops of the queries -/

/-- The capacity check of `make` passes for a capacity that is not negative and
whose size in bytes is within maxAlloc. -/
theorem make_returns {size n : Int} (h0 : 0 ≤ n) (hcap : n * size ≤ maxAlloc) :
    ¬ (n < 0 ∨ maxAlloc < n * size) := by
  rintro (h | h) <;> omega

/-- The capacity 0 always passes. -/
theorem make_zero (size : Int) : ¬ ((0 : Int) < 0 ∨ maxAlloc < 0 * size) := by
  simp [maxAlloc]

theorem stringSize_le {n : Int} (h0 : 0 ≤ n) (hcap : n * relayScoresSize ≤ maxAlloc) :
    n * stringSize ≤ maxAlloc := by
  unfold stringSize relayScoresSize at *
  omega

theorem topNLoop_take (tbl : List String) (n : Int) (l : List RelayEntry)
    (hvalid : ∀ e ∈ l, (relayAt tbl e.Relay).isSome) (i : Nat) (urls : List String)
    (hi : (i : Int) < n) :
    topNLoop tbl n i l urls
      = some (urls ++ (l.take (n - i).toNat).filterMap (fun e => relayAt tbl e.Relay)) := by
  induction l generalizing i urls with
  | nil => simp [topNLoop]
  | cons re rest ih =>
    have hre := hvalid re (List.mem_cons_self _ _)
    obtain ⟨url, hurl⟩ := Option.isSome_iff_exists.mp hre
    have hpos : (n - (i : Int)).toNat = ((n - ((i + 1 : Nat) : Int)).toNat) + 1 := by
      omega
    unfold topNLoop
    rw [hurl, hpos]
    simp only [List.take_succ_cons, List.filterMap_cons, hurl]
    split
    · rename_i heq
      have : (n - ((i + 1 : Nat) : Int)).toNat = 0 := by omega
      rw [this]
      simp
    · rename_i hne
      rw [ih (fun e he => hvalid e (List.mem_cons_of_mem _ he)) (i + 1) (urls ++ [url])
        (by omega)]
      simp

theorem topNLoop_all (tbl : List String) (n : Int) (l : List RelayEntry)
    (hvalid : ∀ e ∈ l, (relayAt tbl e.Relay).isSome) (i : Nat) (urls : List String)
    (hi : n ≤ (i : Int)) :
    topNLoop tbl n i l urls
      = some (urls ++ l.filterMap (fun e => relayAt tbl e.Relay)) := by
  induction l generalizing i urls with
  | nil => simp [topNLoop]
  | cons re rest ih =>
    have hre := hvalid re (List.mem_cons_self _ _)
    obtain ⟨url, hurl⟩ := Option.isSome_iff_exists.mp hre
    unfold topNLoop
    rw [hurl]
    simp only [List.filterMap_cons, hurl]
    rw [if_neg (by omega)]
    rw [ih (fun e he => hvalid e (List.mem_cons_of_mem _ he)) (i + 1) (urls ++ [url])
      (by omega)]
    simp

/-- The record that GetDetailedScores builds for an entry. -/
theorem detailedLoop_take (value : HintKey → Int → Int) (clock : Timestamp)
    (tbl : List String) (n : Int) (l : List RelayEntry)
    (hvalid : ∀ e ∈ l, (relayAt tbl e.Relay).isSome) (i : Nat) (result : List RelayScores) :
    detailedLoop value clock tbl n i l result
      = some (result ++ (l.take (n - i).toNat).filterMap (fun e =>
          (relayAt tbl e.Relay).map (fun url =>
            { Relay := url, Scores := e.Timestamps, Sum := e.Sum value clock }))) := by
  induction l generalizing i result with
  | nil => simp [detailedLoop]
  | cons re rest ih =>
    have hre := hvalid re (List.mem_cons_self _ _)
    obtain ⟨url, hurl⟩ := Option.isSome_iff_exists.mp hre
    unfold detailedLoop
    split
    · rename_i hge
      have : (n - (i : Int)).toNat = 0 := by omega
      rw [this]
      simp
    · rename_i hlt
      have hpos : (n - (i : Int)).toNat = ((n - ((i + 1 : Nat) : Int)).toNat) + 1 := by
        omega
      rw [hurl, hpos]
      simp only [List.take_succ_cons, List.filterMap_cons, hurl, Option.map_some']
      rw [ih (fun e he => hvalid e (List.mem_cons_of_mem _ he)) (i + 1)]
      simp

theorem relayAt_isSome_of_inv {db : HintDB} (hinv : StoreInv db) {pubkey : String}
    {entries : List RelayEntry} (hm : db.OrderedRelaysByPubKey pubkey = some entries)
    {e : RelayEntry} (he : e ∈ entries) : (relayAt db.RelayBySerial e.Relay).isSome := by
  obtain ⟨h0, hlt⟩ := (hinv.2 pubkey entries hm).2 e he
  unfold relayAt
  rw [if_neg (by omega)]
  have : e.Relay.toNat < db.RelayBySerial.length := by omega
  simp [List.getElem?_eq_getElem this]

theorem map_some_filterMap {α β : Type} (f : α → Option β) (l : List α)
    (h : ∀ a ∈ l, (f a).isSome) : (l.filterMap f).map some = l.map f := by
  induction l with
  | nil => rfl
  | cons a as ih =>
    obtain ⟨b, hb⟩ := Option.isSome_iff_exists.mp (h a (List.mem_cons_self _ _))
    simp [List.filterMap_cons, hb, ih (fun x hx => h x (List.mem_cons_of_mem _ hx))]

/-- TopN on a known pubkey with valid serials, for a limit of at least one. -/
theorem TopN_eq (value : HintKey → Int → Int) (clock : Timestamp) (db : HintDB)
    (pubkey : String) (n : Int) (entries : List RelayEntry)
    (hknown : db.OrderedRelaysByPubKey pubkey = some entries)
    (hvalid : ∀ e ∈ entries, (relayAt db.RelayBySerial e.Relay).isSome) (hn : 1 ≤ n)
    (hcap : n * stringSize ≤ maxAlloc) :
    TopN value clock db pubkey n
      = some (((slicesSortFunc (cmpEntries value clock) entries).take n.toNat).filterMap
                (fun e => relayAt db.RelayBySerial e.Relay),
              { RelayBySerial := db.RelayBySerial
                OrderedRelaysByPubKey := Function.update db.OrderedRelaysByPubKey pubkey
                  (some (slicesSortFunc (cmpEntries value clock) entries)) }) := by
  unfold TopN
  rw [if_neg (make_returns (by omega) hcap), hknown]
  simp only
  rw [topNLoop_take _ _ _ (fun e he => hvalid e
    ((List.Perm.mem_iff (slicesSortFunc_perm _ _)).mp he)) 0 [] (by simpa using hn)]
  simp

/-- TopN with the limit 0 on a known pubkey returns every relay of the pubkey. -/
theorem TopN_of_zero (value : HintKey → Int → Int) (clock : Timestamp) (db : HintDB)
    (pubkey : String) (entries : List RelayEntry)
    (hknown : db.OrderedRelaysByPubKey pubkey = some entries)
    (hvalid : ∀ e ∈ entries, (relayAt db.RelayBySerial e.Relay).isSome) :
    TopN value clock db pubkey 0
      = some ((slicesSortFunc (cmpEntries value clock) entries).filterMap
                (fun e => relayAt db.RelayBySerial e.Relay),
              { RelayBySerial := db.RelayBySerial
                OrderedRelaysByPubKey := Function.update db.OrderedRelaysByPubKey pubkey
                  (some (slicesSortFunc (cmpEntries value clock) entries)) }) := by
  unfold TopN
  rw [if_neg (make_zero _), hknown]
  simp only
  rw [topNLoop_all _ _ _ (fun e he => hvalid e
    ((List.Perm.mem_iff (slicesSortFunc_perm _ _)).mp he)) 0 [] (by simp)]
  simp

/-- GetDetailedScores on a known pubkey with valid serials. -/
theorem GetDetailedScores_eq (value : HintKey → Int → Int) (clock : Timestamp) (db : HintDB)
    (pubkey : String) (n : Int) (entries : List RelayEntry)
    (hknown : db.OrderedRelaysByPubKey pubkey = some entries)
    (hvalid : ∀ e ∈ entries, (relayAt db.RelayBySerial e.Relay).isSome) (hn : 0 ≤ n)
    (hcap : n * relayScoresSize ≤ maxAlloc) :
    GetDetailedScores value clock db pubkey n
      = some (((slicesSortFunc (cmpEntries value clock) entries).take n.toNat).filterMap
                (fun e => (relayAt db.RelayBySerial e.Relay).map (fun url =>
                  ({ Relay := url, Scores := e.Timestamps, Sum := e.Sum value clock } :
                    RelayScores))),
              { RelayBySerial := db.RelayBySerial
                OrderedRelaysByPubKey := Function.update db.OrderedRelaysByPubKey pubkey
                  (some (slicesSortFunc (cmpEntries value clock) entries)) }) := by
  unfold GetDetailedScores
  rw [if_neg (make_returns hn hcap), hknown]
  simp only
  rw [detailedLoop_take _ _ _ _ _ (fun e he => hvalid e
    ((List.Perm.mem_iff (slicesSortFunc_perm _ _)).mp he)) 0 []]
  simp

theorem TopN_length (value : HintKey → Int → Int) (clock : Timestamp)
    (db : HintDB) (pubkey : String) (n : Int) (entries : List RelayEntry)
    (hinv : StoreInv db) (hknown : db.OrderedRelaysByPubKey pubkey = some entries)
    (hn : 1 ≤ n) (hcap : n * stringSize ≤ maxAlloc) :
    ∃ (urls : List String) (db1 : HintDB),
      TopN value clock db pubkey n = some (urls, db1)
        ∧ urls.length = min n.toNat entries.length := by
  have hvalid : ∀ e ∈ entries, (relayAt db.RelayBySerial e.Relay).isSome :=
    fun e he => relayAt_isSome_of_inv hinv hknown he
  have hperm := slicesSortFunc_perm (cmpEntries value clock) entries
  refine ⟨_, _, TopN_eq value clock db pubkey n entries hknown hvalid hn hcap, ?_⟩
  have := congrArg List.length (map_some_filterMap
    (fun e => relayAt db.RelayBySerial e.Relay)
    ((slicesSortFunc (cmpEntries value clock) entries).take n.toNat)
    (fun e he => hvalid e (hperm.mem_iff.mp (List.mem_of_mem_take he))))
  simp only [List.length_map, List.length_take] at this
  rw [this, hperm.length_eq]

theorem GetDetailedScores_relays_eq_TopN (value : HintKey → Int → Int) (clock : Timestamp)
    (db : HintDB) (pubkey : String) (n : Int) (hinv : StoreInv db) (hn : 1 ≤ n)
    (hcap : n * relayScoresSize ≤ maxAlloc) :
    (GetDetailedScores value clock db pubkey n).map
        (fun r => (r.1.map RelayScores.Relay, r.2))
      = TopN value clock db pubkey n := by
  cases hm : db.OrderedRelaysByPubKey pubkey with
  | none =>
    unfold TopN GetDetailedScores
    rw [if_neg (make_returns (by omega) (stringSize_le (by omega) hcap)),
      if_neg (make_returns (by omega) hcap), hm]
    rfl
  | some entries =>
    have hvalid : ∀ e ∈ entries, (relayAt db.RelayBySerial e.Relay).isSome :=
      fun e he => relayAt_isSome_of_inv hinv hm he
    rw [GetDetailedScores_eq value clock db pubkey n entries hm hvalid (by omega) hcap,
      TopN_eq value clock db pubkey n entries hm hvalid hn (stringSize_le (by omega) hcap)]
    have hmap : ∀ x : RelayEntry,
        Option.map (RelayScores.Relay ∘ fun url =>
            ({ Relay := url, Scores := x.Timestamps, Sum := x.Sum value clock } : RelayScores))
          (relayAt db.RelayBySerial x.Relay) = relayAt db.RelayBySerial x.Relay := by
      intro x
      cases relayAt db.RelayBySerial x.Relay <;> rfl
    simp only [Option.map_some', List.map_filterMap, Option.map_map, hmap]

/-! ## Stores built by Save -/

theorem getD_of_mem {α : Type} {o : Option (List α)} {x : α} (h : x ∈ o.getD []) :
    o = some (o.getD []) := by
  cases o with
  | none => simp at h
  | some l => rfl

theorem Save_serials (now : Timestamp) (db : HintDB) (pubkey relay : String)
    (key : HintKey) (ts : Timestamp) :
    ∃ es, (Save now db pubkey relay key ts).OrderedRelaysByPubKey pubkey = some es
      ∧ es.map RelayEntry.Relay =
          if (intern db.RelayBySerial relay).1 ∈ serialsOf db pubkey then serialsOf db pubkey
          else serialsOf db pubkey ++ [(intern db.RelayBySerial relay).1] := by
  rw [Save_eq]
  unfold serialsOf
  cases hi : slicesIndexFunc (fun re => decide (re.Relay = (intern db.RelayBySerial relay).1))
      ((db.OrderedRelaysByPubKey pubkey).getD []) with
  | none =>
    have hf := slicesIndexFunc_none_iff.mp hi
    rw [List.find?_eq_none] at hf
    have hnot : (intern db.RelayBySerial relay).1 ∉
        ((db.OrderedRelaysByPubKey pubkey).getD []).map RelayEntry.Relay := by
      intro hmem
      obtain ⟨e, he, hr⟩ := List.mem_map.mp hmem
      have := hf e he
      simp [hr] at this
    refine ⟨_, Function.update_same _ _ _, ?_⟩
    rw [if_neg hnot]
    simp
  | some i =>
    have hf := slicesIndexFunc_some_find hi
    have hrel : ((db.OrderedRelaysByPubKey pubkey).getD [])[i].Relay
        = (intern db.RelayBySerial relay).1 := by
      simpa using List.find?_some hf
    have hmemi : ((db.OrderedRelaysByPubKey pubkey).getD [])[i]
        ∈ (db.OrderedRelaysByPubKey pubkey).getD [] := List.getElem_mem _
    have hin : (intern db.RelayBySerial relay).1 ∈
        ((db.OrderedRelaysByPubKey pubkey).getD []).map RelayEntry.Relay :=
      List.mem_map.mpr ⟨_, hmemi, hrel⟩
    rw [if_pos hin]
    simp only
    split
    · refine ⟨_, Function.update_same _ _ _, ?_⟩
      rw [List.map_set]
      apply List.ext_getElem
      · simp
      · intro j h1 h2
        rw [List.getElem_set]
        split
        · rename_i hij
          subst hij
          simp
        · rfl
    · exact ⟨_, getD_of_mem hmemi, rfl⟩

theorem StoreInv_serials {db : HintDB} (h : StoreInv db) (p : String) :
    (serialsOf db p).Nodup ∧ ∀ i ∈ serialsOf db p, 0 ≤ i ∧ i < db.RelayBySerial.length := by
  unfold serialsOf
  cases hm : db.OrderedRelaysByPubKey p with
  | none => simp
  | some es =>
    obtain ⟨h1, h2⟩ := h.2 p es hm
    refine ⟨h1, ?_⟩
    intro i hi
    obtain ⟨e, he, rfl⟩ := List.mem_map.mp hi
    exact h2 e he

theorem StoreInv_of_serials {db : HintDB} (h1 : db.RelayBySerial.Nodup)
    (h2 : ∀ p, (serialsOf db p).Nodup
      ∧ ∀ i ∈ serialsOf db p, 0 ≤ i ∧ i < db.RelayBySerial.length) : StoreInv db := by
  refine ⟨h1, ?_⟩
  intro p es hm
  have := h2 p
  unfold serialsOf at this
  rw [hm] at this
  refine ⟨this.1, ?_⟩
  intro e he
  exact this.2 e.Relay (List.mem_map.mpr ⟨e, he, rfl⟩)

theorem intern_cases (tbl : List String) (relay : String) :
    (∃ i, slicesIndex tbl relay = some i ∧ intern tbl relay = ((i : Int), tbl))
    ∨ (relay ∉ tbl ∧ intern tbl relay = ((tbl.length : Int), tbl ++ [relay])) := by
  unfold intern
  cases h : slicesIndex tbl relay with
  | none => exact Or.inr ⟨slicesIndex_none_iff.mp h, rfl⟩
  | some i => exact Or.inl ⟨i, rfl, rfl⟩

theorem intern_nodup {tbl : List String} (relay : String) (h : tbl.Nodup) :
    (intern tbl relay).2.Nodup := by
  rcases intern_cases tbl relay with ⟨i, _, hi⟩ | ⟨hn, hi⟩
  · rw [hi]; exact h
  · rw [hi]
    simp only
    rw [List.nodup_append]
    refine ⟨h, by simp, ?_⟩
    intro a ha hb
    simp only [List.mem_singleton] at hb
    subst hb
    exact hn ha

theorem intern_length_le (tbl : List String) (relay : String) :
    tbl.length ≤ (intern tbl relay).2.length := by
  rcases intern_cases tbl relay with ⟨i, _, hi⟩ | ⟨hn, hi⟩
  · rw [hi]
  · rw [hi]; simp

theorem intern_fst_range (tbl : List String) (relay : String) :
    0 ≤ (intern tbl relay).1 ∧ (intern tbl relay).1 < (intern tbl relay).2.length := by
  rcases intern_cases tbl relay with ⟨i, hs, hi⟩ | ⟨hn, hi⟩
  · rw [hi]
    have := slicesIndex_lt hs
    simp only
    omega
  · rw [hi]
    simp

theorem relayAt_intern_fst (tbl : List String) (relay : String) :
    relayAt (intern tbl relay).2 (intern tbl relay).1 = some relay := by
  rcases intern_cases tbl relay with ⟨i, hs, hi⟩ | ⟨hn, hi⟩
  · rw [hi]
    unfold relayAt
    simp only
    rw [if_neg (by omega)]
    simpa using slicesIndex_some_get hs
  · rw [hi]
    unfold relayAt
    simp only
    rw [if_neg (by omega)]
    simp

theorem relayAt_intern_old (tbl : List String) (relay : String) (i : Int)
    (h0 : 0 ≤ i) (h1 : i < tbl.length) :
    relayAt (intern tbl relay).2 i = relayAt tbl i := by
  rcases intern_cases tbl relay with ⟨j, hs, hi⟩ | ⟨hn, hi⟩
  · rw [hi]
  · rw [hi]
    unfold relayAt
    simp only
    rw [if_neg (by omega), if_neg (by omega)]
    rw [List.getElem?_append_left (by omega)]

/-- Save keeps the store invariants. -/
theorem Save_StoreInv (now : Timestamp) (db : HintDB) (pubkey relay : String)
    (key : HintKey) (ts : Timestamp) (h : StoreInv db) :
    StoreInv (Save now db pubkey relay key ts) := by
  apply StoreInv_of_serials
  · rw [Save_RelayBySerial]
    exact intern_nodup relay h.1
  · intro p
    rw [Save_RelayBySerial]
    have hlen := intern_length_le db.RelayBySerial relay
    by_cases hp : p = pubkey
    · subst hp
      obtain ⟨es, hes, hmap⟩ := Save_serials now db p relay key ts
      have hold := StoreInv_serials h p
      have hser : serialsOf (Save now db p relay key ts) p = es.map RelayEntry.Relay := by
        unfold serialsOf
        rw [hes]
        rfl
      rw [hser, hmap]
      split
      · refine ⟨hold.1, ?_⟩
        intro i hi
        have := hold.2 i hi
        omega
      · rename_i hnot
        constructor
        · rw [List.nodup_append]
          refine ⟨hold.1, by simp, ?_⟩
          intro a ha hb
          simp only [List.mem_singleton] at hb
          subst hb
          exact hnot ha
        · intro i hi
          rw [List.mem_append] at hi
          rcases hi with hi | hi
          · have := hold.2 i hi
            omega
          · simp only [List.mem_singleton] at hi
            subst hi
            exact intern_fst_range _ _
    · have hser : serialsOf (Save now db pubkey relay key ts) p = serialsOf db p := by
        unfold serialsOf
        rw [Save_other now db pubkey relay key ts p hp]
      rw [hser]
      have hold := StoreInv_serials h p
      refine ⟨hold.1, ?_⟩
      intro i hi
      have := hold.2 i hi
      omega

theorem NewHintDB_inv : StoreInv NewHintDB := by
  refine ⟨List.nodup_nil, ?_⟩
  intro p es h
  simp [NewHintDB] at h

theorem Save_Tracks (now : Timestamp) (db : HintDB) (pubkey relay : String)
    (key : HintKey) (ts : Timestamp) (S : List (String × String))
    (h : StoreInv db) (ht : Tracks db S) :
    Tracks (Save now db pubkey relay key ts) (S ++ [(pubkey, relay)]) := by
  intro p r
  rw [Save_RelayBySerial]
  have hold := StoreInv_serials h p
  have hsame : ∀ i ∈ serialsOf db p,
      relayAt (intern db.RelayBySerial relay).2 i = relayAt db.RelayBySerial i :=
    fun i hi => relayAt_intern_old _ _ i (hold.2 i hi).1 (hold.2 i hi).2
  by_cases hp : p = pubkey
  · subst hp
    obtain ⟨es, hes, hmap⟩ := Save_serials now db p relay key ts
    have hser : serialsOf (Save now db p relay key ts) p = es.map RelayEntry.Relay := by
      unfold serialsOf
      rw [hes]
      rfl
    rw [hser, hmap]
    have hnew := relayAt_intern_fst db.RelayBySerial relay
    constructor
    · rintro ⟨i, hi, hr⟩
      rw [List.mem_append]
      have hi2 : i ∈ serialsOf db p ∨ i = (intern db.RelayBySerial relay).1 := by
        split at hi
        · exact Or.inl hi
        · simpa using hi
      rcases hi2 with hi2 | hi2
      · rw [hsame i hi2] at hr
        exact Or.inl ((ht p r).mp ⟨i, hi2, hr⟩)
      · subst hi2
        rw [hnew] at hr
        simp only [Option.some.injEq] at hr
        subst hr
        exact Or.inr (List.mem_singleton.mpr rfl)
    · intro hmem
      rw [List.mem_append] at hmem
      rcases hmem with hmem | hmem
      · obtain ⟨i, hi, hr⟩ := (ht p r).mpr hmem
        refine ⟨i, ?_, by rw [hsame i hi]; exact hr⟩
        split
        · exact hi
        · exact List.mem_append_left _ hi
      · simp only [List.mem_singleton, Prod.mk.injEq] at hmem
        obtain ⟨_, rfl⟩ := hmem
        refine ⟨(intern db.RelayBySerial r).1, ?_, hnew⟩
        split
        · assumption
        · simp
  · have hser : serialsOf (Save now db pubkey relay key ts) p = serialsOf db p := by
      unfold serialsOf
      rw [Save_other now db pubkey relay key ts p hp]
    rw [hser]
    have hiff : (p, r) ∈ S ++ [(pubkey, relay)] ↔ (p, r) ∈ S := by
      simp [hp]
    rw [hiff, ← ht p r]
    constructor
    · rintro ⟨i, hi, hr⟩
      exact ⟨i, hi, by rw [← hsame i hi]; exact hr⟩
    · rintro ⟨i, hi, hr⟩
      exact ⟨i, hi, by rw [hsame i hi]; exact hr⟩

theorem runSaves_inv (calls : List SaveCall) (db : HintDB) (S : List (String × String))
    (h : StoreInv db) (ht : Tracks db S) :
    StoreInv (runSaves db calls)
      ∧ Tracks (runSaves db calls) (S ++ calls.map (fun c => (c.pubkey, c.relay))) := by
  induction calls generalizing db S with
  | nil => simpa [runSaves] using ⟨h, ht⟩
  | cons c cs ih =>
    have := ih (Save c.now db c.pubkey c.relay c.key c.ts) (S ++ [(c.pubkey, c.relay)])
      (Save_StoreInv _ _ _ _ _ _ h) (Save_Tracks _ _ _ _ _ _ S h ht)
    simpa [runSaves] using this

theorem relayAt_inj {tbl : List String} (hnd : tbl.Nodup) {i j : Int} {r : String}
    (hi : relayAt tbl i = some r) (hj : relayAt tbl j = some r) : i = j := by
  obtain ⟨hi0, hig⟩ := relayAt_some hi
  obtain ⟨hj0, hjg⟩ := relayAt_some hj
  have hlt : i.toNat < tbl.length := by
    by_contra hcon
    rw [List.getElem?_eq_none (by omega)] at hig
    simp at hig
  have := List.getElem?_inj hlt hnd (hig.trans hjg.symm)
  omega

theorem mem_recordedRelays (calls : List SaveCall) (p r : String) :
    r ∈ recordedRelays calls p ↔ ∃ c ∈ calls, c.pubkey = p ∧ c.relay = r := by
  unfold recordedRelays
  simp only [List.mem_dedup, List.mem_map, List.mem_filter, decide_eq_true_eq]
  constructor
  · rintro ⟨c, ⟨hc, hp⟩, hr⟩
    exact ⟨c, hc, hp, hr⟩
  · rintro ⟨c, hc, hp, hr⟩
    exact ⟨c, ⟨hc, hp⟩, hr⟩

/-! ## The score in exact arithmetic -/

theorem rootLoop_spec (n d : Nat) (b v : Nat) (h : v ^ 10 * d ^ 13 ≤ n ^ 10) :
    (rootLoop n d b v) ^ 10 * d ^ 13 ≤ n ^ 10 := by
  induction b generalizing v with
  | zero => exact h
  | succ b ih =>
    unfold rootLoop
    split
    · rename_i hle
      exact ih _ hle
    · exact ih _ h

theorem rootLoop_le (n d : Nat) (hd : 1 ≤ d) (b : Nat) : rootLoop n d b 0 ≤ n := by
  have h := rootLoop_spec n d b 0 (by simp)
  have h2 : (rootLoop n d b 0) ^ 10 ≤ n ^ 10 := by
    refine le_trans ?_ h
    exact Nat.le_mul_of_pos_right _ (pow_pos (by omega) 13)
  exact (Nat.pow_le_pow_iff_left (by norm_num)).mp h2

theorem exactValue_abs_le (base : HintKey → Int) (i : HintKey) (d : Int) (hd : 1 ≤ d) :
    -((base i).natAbs * 10 ^ 10 : Int) ≤ exactValue base i d
      ∧ exactValue base i d ≤ ((base i).natAbs * 10 ^ 10 : Int) := by
  have h := rootLoop_le ((base i).natAbs * 10 ^ 10) d.toNat (by omega) 63
  have h2 : ((rootLoop ((base i).natAbs * 10 ^ 10) d.toNat 63 0 : Nat) : Int)
      ≤ ((base i).natAbs * 10 ^ 10 : Int) := by exact_mod_cast h
  unfold exactValue
  simp only
  split <;> omega

theorem exactValue_bounded (base : HintKey → Int) (hbase : ∀ i, (base i).natAbs ≤ 10 ^ 8) :
    ValueBounded (exactValue base) := by
  intro i d hd
  have h := exactValue_abs_le base i d hd
  have hb : ((base i).natAbs : Int) ≤ 10 ^ 8 := by exact_mod_cast hbase i
  constructor
  · refine lt_of_lt_of_le ?_ h.1
    have : ((base i).natAbs * 10 ^ 10 : Int) ≤ 10 ^ 8 * 10 ^ 10 :=
      mul_le_mul_of_nonneg_right hb (by norm_num)
    have h3 : (10 : Int) ^ 8 * 10 ^ 10 < 2 ^ 60 := by norm_num
    omega
  · refine lt_of_le_of_lt h.2 ?_
    have : ((base i).natAbs * 10 ^ 10 : Int) ≤ 10 ^ 8 * 10 ^ 10 :=
      mul_le_mul_of_nonneg_right hb (by norm_num)
    have h3 : (10 : Int) ^ 8 * 10 ^ 10 < 2 ^ 60 := by norm_num
    omega

theorem scenario_store (X : HintKey) (now : Int) (hnow : 200 ≤ now) :
    (scenario X now).RelayBySerial = ["wss://relay.a", "wss://relay.b"]
    ∧ (scenario X now).OrderedRelaysByPubKey "alice"
        = some [{ Relay := 0, Timestamps := Function.update (fun _ => 0) X 100 },
                { Relay := 1, Timestamps := Function.update (fun _ => 0) X 200 }] := by
  have h1 : min (100 : Int) now = 100 := min_eq_left (by omega)
  have h2 : min (200 : Int) now = 200 := min_eq_left hnow
  unfold scenario
  constructor
  · rw [Save_RelayBySerial, Save_RelayBySerial]
    rfl
  · rw [Save_eq, Save_eq, h1, h2]
    simp [NewHintDB, intern, slicesIndex, slicesIndexFunc]

/-! ## Claims on the queries -/

/-- C5, as the code behaves (TopN ordering). For a store that satisfies the store
invariants, a known pubkey and a limit `n ≥ 1` within the capacity that
`make([]string, 0, n)` of line 74 accepts (`n * 16 ≤ 2^48` bytes), with every score
taken at the one clock reading `clock`, TopN returns the relay strings, looked up in RelayBySerial, of the first
`min n len` entries of a permutation `sorted` of the evidence sequence of the pubkey
whose scores are non-increasing; no entry that is left out has a higher score than
an entry that is returned. The hypothesis on `value` keeps the comparator
`int(b.Sum() - a.Sum())` free of int64 overflow. -/
theorem TopN_ordering (value : HintKey → Int → Int) (clock : Timestamp) (db : HintDB)
    (pubkey : String) (n : Int) (entries : List RelayEntry)
    (hvalue : ValueBounded value) (hinv : StoreInv db)
    (hknown : db.OrderedRelaysByPubKey pubkey = some entries) (hn : 1 ≤ n)
    (hcap : n * stringSize ≤ maxAlloc) :
    ∃ (sorted : List RelayEntry) (urls : List String) (db1 : HintDB),
      TopN value clock db pubkey n = some (urls, db1)
      ∧ sorted.Perm entries
      ∧ sorted.Pairwise (fun a b => b.Sum value clock ≤ a.Sum value clock)
      ∧ urls.map some = (sorted.take (min n.toNat entries.length)).map
          (fun e => relayAt db.RelayBySerial e.Relay)
      ∧ ∀ a ∈ sorted.take (min n.toNat entries.length),
          ∀ b ∈ sorted.drop (min n.toNat entries.length),
            b.Sum value clock ≤ a.Sum value clock := by
  have hvalid : ∀ e ∈ entries, (relayAt db.RelayBySerial e.Relay).isSome :=
    fun e he => relayAt_isSome_of_inv hinv hknown he
  have hperm := slicesSortFunc_perm (cmpEntries value clock) entries
  have hsorted := slicesSortFunc_sorted (cmpEntries value clock)
    (fun e => e.Sum value clock) (cmpEntries_neg_iff value hvalue clock) entries
  have hlen : (slicesSortFunc (cmpEntries value clock) entries).length = entries.length :=
    hperm.length_eq
  have htake : (slicesSortFunc (cmpEntries value clock) entries).take
        (min n.toNat entries.length)
      = (slicesSortFunc (cmpEntries value clock) entries).take n.toNat := by
    rw [← hlen, List.take_eq_take]
    simp
  refine ⟨slicesSortFunc (cmpEntries value clock) entries, _, _,
    TopN_eq value clock db pubkey n entries hknown hvalid hn hcap, hperm, hsorted, ?_, ?_⟩
  · rw [htake]
    exact map_some_filterMap _ _ (fun e he => hvalid e
      (hperm.mem_iff.mp (List.mem_of_mem_take he)))
  · intro a ha b hb
    have := hsorted
    rw [← List.take_append_drop (min n.toNat entries.length)
      (slicesSortFunc (cmpEntries value clock) entries), List.pairwise_append] at this
    exact this.2.2 a ha b hb

/-- The first of the two relays of the scenario, ranked at clock reading 200. -/
theorem TopN_ordering_witness :
    ∃ (sorted : List RelayEntry) (urls : List String) (db1 : HintDB),
      TopN (exactValue (fun _ => 350)) 200 (scenario 0 200) "alice" 1 = some (urls, db1)
      ∧ sorted.Perm [{ Relay := 0, Timestamps := Function.update (fun _ => 0) 0 100 },
                     { Relay := 1, Timestamps := Function.update (fun _ => 0) 0 200 }]
      ∧ sorted.Pairwise (fun a b => b.Sum (exactValue (fun _ => 350)) 200
          ≤ a.Sum (exactValue (fun _ => 350)) 200)
      ∧ urls.map some = (sorted.take (min (1 : Int).toNat
            [({ Relay := 0, Timestamps := Function.update (fun _ => 0) 0 100 } : RelayEntry),
             { Relay := 1, Timestamps := Function.update (fun _ => 0) 0 200 }].length)).map
          (fun e => relayAt (scenario 0 200).RelayBySerial e.Relay)
      ∧ ∀ a ∈ sorted.take (min (1 : Int).toNat
            [({ Relay := 0, Timestamps := Function.update (fun _ => 0) 0 100 } : RelayEntry),
             { Relay := 1, Timestamps := Function.update (fun _ => 0) 0 200 }].length),
          ∀ b ∈ sorted.drop (min (1 : Int).toNat
            [({ Relay := 0, Timestamps := Function.update (fun _ => 0) 0 100 } : RelayEntry),
             { Relay := 1, Timestamps := Function.update (fun _ => 0) 0 200 }].length),
            b.Sum (exactValue (fun _ => 350)) 200 ≤ a.Sum (exactValue (fun _ => 350)) 200 :=
  TopN_ordering (exactValue (fun _ => 350)) 200 (scenario 0 200) "alice" 1 _
    (exactValue_bounded _ (fun _ => by decide))
    (Save_StoreInv _ _ _ _ _ _ (Save_StoreInv _ _ _ _ _ _ NewHintDB_inv))
    (scenario_store 0 200 (by decide)).2 (by decide) (by decide)

/-- C5 fails as stated: for the limit `2^62`, which is `≥ 1`, on a store with the
store invariants and a known pubkey, `make([]string, 0, n)` of line 74 asks for
`2^66` bytes and panics (makeslice: cap out of range), so TopN returns no list. -/
theorem TopN_panics_on_huge_limit :
    StoreInv (Save 1000 NewHintDB "alice" "wss://relay.a" 0 500)
      ∧ (Save 1000 NewHintDB "alice" "wss://relay.a" 0 500).OrderedRelaysByPubKey "alice"
          = some [{ Relay := 0, Timestamps := Function.update (fun _ => 0) 0 500 }]
      ∧ (1 : Int) ≤ 2 ^ 62
      ∧ TopN (fun _ _ => 0) 1000 (Save 1000 NewHintDB "alice" "wss://relay.a" 0 500)
          "alice" (2 ^ 62) = none :=
  ⟨Save_StoreInv _ _ _ _ _ _ NewHintDB_inv, rfl, by decide, rfl⟩

/-- C6, at the input where the code departs from it: after one Save for "alice",
TopN("alice", 0) returns one relay string, not `min 0 1 = 0` of them. The loop of
lines 81-86 appends before it tests `i+1 == n`, and no index satisfies the test when
`n = 0`. -/
theorem TopN_limit_zero_returns_all (value : HintKey → Int → Int) (clock : Timestamp) :
    (TopN value clock (Save 1000 NewHintDB "alice" "wss://relay.a" 0 500) "alice" 0).map
        (fun r => r.1) = some ["wss://relay.a"] := by
  rfl

/-- C7, at the input where the code departs from it: after one Save for "alice",
GetDetailedScores("alice", 0) returns no record while TopN("alice", 0) returns the
relay of the pubkey, so the two lists differ. For `n ≥ 1` within the capacity that
`make` accepts they agree (GetDetailedScores_relays_eq_TopN). -/
theorem GetDetailedScores_limit_zero_differs (value : HintKey → Int → Int) (clock : Timestamp) :
    (GetDetailedScores value clock (Save 1000 NewHintDB "alice" "wss://relay.a" 0 500)
        "alice" 0).map (fun r => r.1.map RelayScores.Relay) = some []
    ∧ (TopN value clock (Save 1000 NewHintDB "alice" "wss://relay.a" 0 500) "alice" 0).map
        (fun r => r.1) = some ["wss://relay.a"] := by
  constructor <;> rfl

/-- C8, as the code behaves (relay round trip through the interning table). After any
sequence of Save calls on the empty store, for a pubkey `p` with `k ≥ 1` distinct
relay strings recorded in the sequence and any limit `n ≥ k` within the capacity that
`make([]string, 0, n)` of line 74 accepts (`n * 16 ≤ 2^48` bytes), TopN(p, n) succeeds and returns `k`
strings without repetition, which are exactly the relay strings recorded for `p`:
none is missing and none comes from a call for another pubkey only. -/
theorem TopN_round_trip (value : HintKey → Int → Int) (clock : Timestamp)
    (calls : List SaveCall) (p : String) (n : Int)
    (hk : 1 ≤ (recordedRelays calls p).length)
    (hn : ((recordedRelays calls p).length : Int) ≤ n)
    (hcap : n * stringSize ≤ maxAlloc) :
    ∃ (urls : List String) (db1 : HintDB),
      TopN value clock (runSaves NewHintDB calls) p n = some (urls, db1)
      ∧ urls.Nodup
      ∧ urls.length = (recordedRelays calls p).length
      ∧ ∀ r, r ∈ urls ↔ ∃ c ∈ calls, c.pubkey = p ∧ c.relay = r := by
  obtain ⟨hinv, htr⟩ := runSaves_inv calls NewHintDB []
    NewHintDB_inv (by intro p r; simp [serialsOf, NewHintDB])
  simp only [List.nil_append] at htr
  have hmemS : ∀ r, (p, r) ∈ calls.map (fun c => (c.pubkey, c.relay))
      ↔ ∃ c ∈ calls, c.pubkey = p ∧ c.relay = r := by
    intro r
    simp only [List.mem_map, Prod.mk.injEq]
  -- the pubkey is known
  obtain ⟨r0, hr0⟩ := List.exists_mem_of_length_pos (Nat.lt_of_lt_of_le Nat.zero_lt_one hk)
  obtain ⟨i0, hi0, _⟩ := (htr p r0).mpr ((hmemS r0).mpr ((mem_recordedRelays calls p r0).mp hr0))
  have hknown : (runSaves NewHintDB calls).OrderedRelaysByPubKey p
      = some (((runSaves NewHintDB calls).OrderedRelaysByPubKey p).getD []) := by
    unfold serialsOf at hi0
    obtain ⟨e, he, _⟩ := List.mem_map.mp hi0
    exact getD_of_mem he
  generalize hes : ((runSaves NewHintDB calls).OrderedRelaysByPubKey p).getD [] = es at hknown
  have hser : serialsOf (runSaves NewHintDB calls) p = es.map RelayEntry.Relay := by
    unfold serialsOf
    rw [hes]
  have hvalid : ∀ e ∈ es, (relayAt (runSaves NewHintDB calls).RelayBySerial e.Relay).isSome :=
    fun e he => relayAt_isSome_of_inv hinv hknown he
  have hperm := slicesSortFunc_perm (cmpEntries value clock) es
  -- the relay strings of all entries, in sorted order
  have hfull : ((slicesSortFunc (cmpEntries value clock) es).filterMap
        (fun e => relayAt (runSaves NewHintDB calls).RelayBySerial e.Relay))
      = ((slicesSortFunc (cmpEntries value clock) es).map RelayEntry.Relay).filterMap
          (relayAt (runSaves NewHintDB calls).RelayBySerial) := by
    rw [List.filterMap_map]
    rfl
  have hnodup : ((slicesSortFunc (cmpEntries value clock) es).filterMap
      (fun e => relayAt (runSaves NewHintDB calls).RelayBySerial e.Relay)).Nodup := by
    rw [hfull]
    apply List.Nodup.filterMap
    · intro a a2 b ha ha2
      exact relayAt_inj hinv.1 (Option.mem_def.mp ha) (Option.mem_def.mp ha2)
    · exact ((hperm.map RelayEntry.Relay).nodup_iff).mpr (hinv.2 p es hknown).1
  have hmem : ∀ r, r ∈ ((slicesSortFunc (cmpEntries value clock) es).filterMap
        (fun e => relayAt (runSaves NewHintDB calls).RelayBySerial e.Relay))
      ↔ ∃ c ∈ calls, c.pubkey = p ∧ c.relay = r := by
    intro r
    rw [← hmemS r, ← htr p r, hser, List.mem_filterMap]
    constructor
    · rintro ⟨e, he, hr⟩
      exact ⟨e.Relay, List.mem_map.mpr ⟨e, hperm.mem_iff.mp he, rfl⟩, hr⟩
    · rintro ⟨i, hi, hr⟩
      obtain ⟨e, he, rfl⟩ := List.mem_map.mp hi
      exact ⟨e, hperm.mem_iff.mpr he, hr⟩
  have hpermR : ((slicesSortFunc (cmpEntries value clock) es).filterMap
        (fun e => relayAt (runSaves NewHintDB calls).RelayBySerial e.Relay)).Perm
      (recordedRelays calls p) := by
    have hnd2 : (recordedRelays calls p).Nodup := List.nodup_dedup _
    rw [List.perm_ext_iff_of_nodup hnodup hnd2]
    intro r
    rw [hmem r, mem_recordedRelays]
  have hlenfull : ((slicesSortFunc (cmpEntries value clock) es).filterMap
        (fun e => relayAt (runSaves NewHintDB calls).RelayBySerial e.Relay)).length
      = (slicesSortFunc (cmpEntries value clock) es).length := by
    have := congrArg List.length (map_some_filterMap
      (fun e => relayAt (runSaves NewHintDB calls).RelayBySerial e.Relay)
      (slicesSortFunc (cmpEntries value clock) es)
      (fun e he => hvalid e (hperm.mem_iff.mp he)))
    simpa using this
  have htake : (slicesSortFunc (cmpEntries value clock) es).take n.toNat
      = slicesSortFunc (cmpEntries value clock) es := by
    apply List.take_of_length_le
    rw [← hlenfull, hpermR.length_eq]
    omega
  refine ⟨_, _, TopN_eq value clock _ p n es hknown hvalid (by omega) hcap, ?_, ?_, ?_⟩
  · rw [htake]; exact hnodup
  · rw [htake]; exact hpermR.length_eq
  · rw [htake]; exact hmem

/-- Alice's two relays among five interleaved calls. -/
theorem TopN_round_trip_witness :
    ∃ (urls : List String) (db1 : HintDB),
      TopN (fun _ _ => 0) 2000 (runSaves NewHintDB exampleCalls) "alice" 2 = some (urls, db1)
      ∧ urls.Nodup
      ∧ urls.length = (recordedRelays exampleCalls "alice").length
      ∧ ∀ r, r ∈ urls ↔ ∃ c ∈ exampleCalls, c.pubkey = "alice" ∧ c.relay = r :=
  TopN_round_trip (fun _ _ => 0) 2000 exampleCalls "alice" 2 (by decide) (by decide)
    (by decide)

/-- C8 fails as stated: after the five interleaved calls "alice" has `k = 2` relay
strings recorded, and for the limit `2^62 ≥ k` the allocation `make([]string, 0, n)`
of line 74 panics (makeslice: cap out of range), so TopN returns no relay string. -/
theorem TopN_round_trip_panics_on_huge_limit :
    (recordedRelays exampleCalls "alice").length = 2
      ∧ ((recordedRelays exampleCalls "alice").length : Int) ≤ 2 ^ 62
      ∧ TopN (fun _ _ => 0) 2000 (runSaves NewHintDB exampleCalls) "alice" (2 ^ 62) = none :=
  ⟨by decide, by decide, rfl⟩

/-- C9, as the code behaves: in the scenario run at a clock reading `now ≥ 200`,
for every category `X`, TopN("alice", 2) returns "wss://relay.b" before
"wss://relay.a" whenever the score of the entry seen at 200 is strictly greater than
the score of the entry seen at 100. -/
theorem scenario_more_recent_first (value : HintKey → Int → Int) (X : HintKey) (now : Int)
    (hvalue : ValueBounded value) (hnow : 200 ≤ now)
    (hscore :
      RelayEntry.Sum value now { Relay := 0, Timestamps := Function.update (fun _ => 0) X 100 }
        < RelayEntry.Sum value now
            { Relay := 1, Timestamps := Function.update (fun _ => 0) X 200 }) :
    (TopN value now (scenario X now) "alice" 2).map (fun r => r.1)
      = some ["wss://relay.b", "wss://relay.a"] := by
  obtain ⟨htbl, hentries⟩ := scenario_store X now hnow
  rw [TopN_eq value now (scenario X now) "alice" 2 _ hentries
    (by rw [htbl]; intro e he; simp at he; rcases he with rfl | rfl <;> rfl) (by norm_num)
    (by decide)]
  rw [sort_pair, if_pos ((cmpEntries_neg_iff value hvalue now _ _).mpr hscore), htbl]
  rfl

/-- At clock reading 200 and base weight 350 the scores are 1338443 and 1336432. -/
theorem scenario_more_recent_first_witness :
    (TopN (exactValue (fun _ => 350)) 200 (scenario 0 200) "alice" 2).map (fun r => r.1)
      = some ["wss://relay.b", "wss://relay.a"] :=
  scenario_more_recent_first (exactValue (fun _ => 350)) 0 200
    (exactValue_bounded _ (fun _ => by decide)) (by decide) (by decide)

/-- C9 fails as stated: at the clock reading 1700000000, with the base weight 350
and the score taken in exact arithmetic, both entries score 3 (the quotients are
3.503..., truncated), the comparator returns 0, the sort leaves the order of
insertion, and TopN("alice", 2) returns "wss://relay.a" first. -/
theorem scenario_ties_at_wall_clock :
    (TopN (exactValue (fun _ => 350)) 1700000000 (scenario 0 1700000000) "alice" 2).map
        (fun r => r.1)
      = some ["wss://relay.a", "wss://relay.b"] := by
  decide

/-- C10, as the code behaves (unknown pubkey on query). For a pubkey without an entry
in OrderedRelaysByPubKey and a limit `n ≥ 0`, each of TopN and GetDetailedScores
returns the empty slice and the store it was given, whenever `n` is within the
capacity that its allocation accepts: `n * 16 ≤ 2^48` bytes for `make([]string, 0, n)`
of line 74 and `n * 56 ≤ 2^48` bytes for `make([]hints.RelayScores, 0, n)` of line
111. The allocations run before the lookup of the pubkey. -/
theorem query_unknown_pubkey (value : HintKey → Int → Int) (clock : Timestamp) (db : HintDB)
    (pubkey : String) (n : Int)
    (hunknown : db.OrderedRelaysByPubKey pubkey = none) (hn : 0 ≤ n) :
    (n * stringSize ≤ maxAlloc → TopN value clock db pubkey n = some ([], db))
      ∧ (n * relayScoresSize ≤ maxAlloc →
          GetDetailedScores value clock db pubkey n = some ([], db)) := by
  constructor
  · intro hcap
    unfold TopN
    rw [if_neg (make_returns hn hcap), hunknown]
  · intro hcap
    unfold GetDetailedScores
    rw [if_neg (make_returns hn hcap), hunknown]

/-- The scenario of the specification: TopN("unknown-pubkey", 5) on the empty store. -/
theorem query_unknown_pubkey_witness :
    TopN (fun _ _ => 0) 1000 NewHintDB "unknown-pubkey" 5 = some ([], NewHintDB)
      ∧ GetDetailedScores (fun _ _ => 0) 1000 NewHintDB "unknown-pubkey" 5
          = some ([], NewHintDB) :=
  ⟨(query_unknown_pubkey (fun _ _ => 0) 1000 NewHintDB "unknown-pubkey" 5 rfl
      (by decide)).1 (by decide),
    (query_unknown_pubkey (fun _ _ => 0) 1000 NewHintDB "unknown-pubkey" 5 rfl
      (by decide)).2 (by decide)⟩

/-- C10 fails as stated: for the limit `2^62`, which is `≥ 0`, and a pubkey unknown to
the empty store, the allocations of lines 74 and 111 panic (makeslice: cap out of
range) before the pubkey is looked up, so neither query returns the empty slice. -/
theorem unknown_pubkey_panics_on_huge_limit :
    NewHintDB.OrderedRelaysByPubKey "unknown-pubkey" = none
      ∧ (0 : Int) ≤ 2 ^ 62
      ∧ TopN (fun _ _ => 0) 1000 NewHintDB "unknown-pubkey" (2 ^ 62) = none
      ∧ GetDetailedScores (fun _ _ => 0) 1000 NewHintDB "unknown-pubkey" (2 ^ 62) = none :=
  ⟨rfl, by decide, rfl, rfl⟩

/-! ## The outcomes of Save -/

/-- The three outcomes of Save on the sequence of its pubkey. -/
theorem Save_cases (now : Timestamp) (db : HintDB) (pubkey relay : String)
    (key : HintKey) (ts : Timestamp) :
    (Save now db pubkey relay key ts).OrderedRelaysByPubKey pubkey
        = db.OrderedRelaysByPubKey pubkey
    ∨ (Save now db pubkey relay key ts).OrderedRelaysByPubKey pubkey
        = some ((db.OrderedRelaysByPubKey pubkey).getD [] ++
            [{ Relay := (intern db.RelayBySerial relay).1
               Timestamps := Function.update (fun _ => 0) key (min ts now) }])
    ∨ ∃ i : Fin ((db.OrderedRelaysByPubKey pubkey).getD []).length,
        (((db.OrderedRelaysByPubKey pubkey).getD [])[i]).Relay
            = (intern db.RelayBySerial relay).1
        ∧ (((db.OrderedRelaysByPubKey pubkey).getD [])[i]).Timestamps key < min ts now
        ∧ (Save now db pubkey relay key ts).OrderedRelaysByPubKey pubkey
            = some (((db.OrderedRelaysByPubKey pubkey).getD []).set i
                { Relay := (((db.OrderedRelaysByPubKey pubkey).getD [])[i]).Relay
                  Timestamps := Function.update
                    (((db.OrderedRelaysByPubKey pubkey).getD [])[i]).Timestamps key
                    (min ts now) }) := by
  rw [Save_eq]
  cases hi : slicesIndexFunc (fun re => decide (re.Relay = (intern db.RelayBySerial relay).1))
      ((db.OrderedRelaysByPubKey pubkey).getD []) with
  | none =>
    right; left
    simp only [Function.update_same]
  | some i =>
    have hf := slicesIndexFunc_some_find hi
    have hrel : ((db.OrderedRelaysByPubKey pubkey).getD [])[i].Relay
        = (intern db.RelayBySerial relay).1 := by
      simpa using List.find?_some hf
    simp only
    split
    · rename_i hlt
      right; right
      exact ⟨i, hrel, hlt, by simp only [Function.update_same]⟩
    · left; rfl

theorem mem_getD_iff {α : Type} {o : Option (List α)} {x : α} :
    x ∈ o.getD [] ↔ ∃ l, o = some l ∧ x ∈ l := by
  cases o with
  | none => simp
  | some l => simp

theorem Save_StampsAtMost (T : Int) (now : Int) (db : HintDB) (pubkey relay : String)
    (key : HintKey) (ts : Int) (hT : T ≤ now) (h : StampsAtMost T db) :
    StampsAtMost now (Save now db pubkey relay key ts) := by
  have hold : ∀ e ∈ (db.OrderedRelaysByPubKey pubkey).getD [], ∀ k,
      e.Timestamps k = 0 ∨ e.Timestamps k ≤ now := by
    intro e he k
    obtain ⟨l, hl, hel⟩ := mem_getD_iff.mp he
    rcases h pubkey l hl e hel k with h0 | hle
    · exact Or.inl h0
    · exact Or.inr (le_trans hle hT)
  intro q es hq e he k
  by_cases hqp : q = pubkey
  · subst hqp
    rcases Save_cases now db q relay key ts with hc | hc | ⟨i, _, _, hc⟩
    · rw [hc] at hq
      exact hold e (mem_getD_iff.mpr ⟨es, hq, he⟩) k
    · rw [hc] at hq
      simp only [Option.some.injEq] at hq
      subst hq
      rw [List.mem_append] at he
      rcases he with he | he
      · exact hold e he k
      · simp only [List.mem_singleton] at he
        subst he
        simp only
        by_cases hk : k = key
        · subst hk
          rw [Function.update_same]
          exact Or.inr (min_le_right _ _)
        · rw [Function.update_noteq hk]
          exact Or.inl rfl
    · rw [hc] at hq
      simp only [Option.some.injEq] at hq
      subst hq
      rcases List.mem_or_eq_of_mem_set he with he | he
      · exact hold e he k
      · subst he
        simp only
        by_cases hk : k = key
        · subst hk
          rw [Function.update_same]
          exact Or.inr (min_le_right _ _)
        · rw [Function.update_noteq hk]
          exact hold _ (List.getElem_mem _) k
  · rw [Save_other now db pubkey relay key ts q hqp] at hq
    rcases h q es hq e he k with h0 | hle
    · exact Or.inl h0
    · exact Or.inr (le_trans hle hT)

theorem runSaves_StampsAtMost (calls : List SaveCall) (db : HintDB) (T : Int)
    (h : StampsAtMost T db) (hT : ∀ c ∈ calls, T ≤ c.now)
    (hsorted : calls.Pairwise (fun a b => a.now ≤ b.now))
    (c : SaveCall) (hlast : calls.getLast? = some c) :
    StampsAtMost c.now (runSaves db calls) := by
  induction calls generalizing db T with
  | nil => simp at hlast
  | cons a rest ih =>
    have ha := Save_StampsAtMost T a.now db a.pubkey a.relay a.key a.ts
      (hT a (List.mem_cons_self _ _)) h
    rw [List.pairwise_cons] at hsorted
    cases rest with
    | nil =>
      simp only [List.getLast?_singleton, Option.some.injEq] at hlast
      subst hlast
      simpa [runSaves] using ha
    | cons b rest2 =>
      rw [List.getLast?_cons_cons] at hlast
      have := ih (Save a.now db a.pubkey a.relay a.key a.ts) a.now ha
        hsorted.1 hsorted.2 hlast
      simpa [runSaves] using this

theorem slicesIndex_append_of_some {s : List String} {v x : String} {i : Nat}
    (h : slicesIndex s v = some i) : slicesIndex (s ++ [x]) v = some i := by
  induction s generalizing i with
  | nil => simp [slicesIndex] at h
  | cons y ys ih =>
    unfold slicesIndex at h
    simp only [List.cons_append]
    unfold slicesIndex
    split
    · rename_i hy
      rw [if_pos hy] at h
      exact h
    · rename_i hy
      rw [if_neg hy] at h
      cases hys : slicesIndex ys v with
      | none => simp [hys] at h
      | some j =>
        rw [hys] at h
        rw [ih hys]
        exact h

/-! ## Reachable stores -/

theorem TopN_store (value : HintKey → Int → Int) (clock : Timestamp) (db : HintDB)
    (pubkey : String) (n : Int) (urls : List String) (db1 : HintDB)
    (h : TopN value clock db pubkey n = some (urls, db1)) :
    db1 = sortStored value clock db pubkey := by
  unfold TopN at h
  unfold sortStored
  split at h
  · simp at h
  · split at h
    · simp only [Option.some.injEq, Prod.mk.injEq] at h
      exact h.2.symm
    · simp only [Option.map_eq_some'] at h
      obtain ⟨_, _, h2⟩ := h
      simp only [Prod.mk.injEq] at h2
      exact h2.2.symm

theorem GetDetailedScores_store (value : HintKey → Int → Int) (clock : Timestamp)
    (db : HintDB) (pubkey : String) (n : Int) (result : List RelayScores) (db1 : HintDB)
    (h : GetDetailedScores value clock db pubkey n = some (result, db1)) :
    db1 = sortStored value clock db pubkey := by
  unfold GetDetailedScores at h
  unfold sortStored
  split at h
  · simp at h
  · split at h
    · simp only [Option.some.injEq, Prod.mk.injEq] at h
      exact h.2.symm
    · simp only [Option.map_eq_some'] at h
      obtain ⟨_, _, h2⟩ := h
      simp only [Prod.mk.injEq] at h2
      exact h2.2.symm

theorem sortStored_RelayBySerial (value : HintKey → Int → Int) (clock : Timestamp)
    (db : HintDB) (pubkey : String) :
    (sortStored value clock db pubkey).RelayBySerial = db.RelayBySerial := by
  unfold sortStored
  split <;> rfl

theorem sortStored_other (value : HintKey → Int → Int) (clock : Timestamp)
    (db : HintDB) (pubkey q : String) (hq : q ≠ pubkey) :
    (sortStored value clock db pubkey).OrderedRelaysByPubKey q
      = db.OrderedRelaysByPubKey q := by
  unfold sortStored
  split
  · rfl
  · simp [Function.update, hq]

theorem sortStored_self (value : HintKey → Int → Int) (clock : Timestamp)
    (db : HintDB) (pubkey : String) :
    (sortStored value clock db pubkey).OrderedRelaysByPubKey pubkey
      = (db.OrderedRelaysByPubKey pubkey).map (slicesSortFunc (cmpEntries value clock)) := by
  unfold sortStored
  split
  · rename_i h
    rw [h]; rfl
  · rename_i entries h
    rw [h]
    simp

theorem sortStored_StoreInv (value : HintKey → Int → Int) (clock : Timestamp)
    (db : HintDB) (pubkey : String) (h : StoreInv db) :
    StoreInv (sortStored value clock db pubkey) := by
  refine ⟨by rw [sortStored_RelayBySerial]; exact h.1, ?_⟩
  intro q es hq
  rw [sortStored_RelayBySerial]
  by_cases hqp : q = pubkey
  · subst hqp
    rw [sortStored_self] at hq
    cases hm : db.OrderedRelaysByPubKey q with
    | none => rw [hm] at hq; simp at hq
    | some entries =>
      rw [hm] at hq
      simp only [Option.map_some', Option.some.injEq] at hq
      subst hq
      have hperm := slicesSortFunc_perm (cmpEntries value clock) entries
      obtain ⟨h1, h2⟩ := h.2 q entries hm
      refine ⟨((hperm.map RelayEntry.Relay).nodup_iff).mpr h1, ?_⟩
      intro e he
      exact h2 e (hperm.mem_iff.mp he)
  · rw [sortStored_other _ _ _ _ _ hqp] at hq
    exact h.2 q es hq

theorem Reachable_StoreInv (value : HintKey → Int → Int) (db : HintDB)
    (h : Reachable value db) : StoreInv db := by
  induction h with
  | empty => exact NewHintDB_inv
  | save now db pubkey relay key ts _ ih => exact Save_StoreInv _ _ _ _ _ _ ih
  | topN clock db pubkey n urls db1 _ hq ih =>
    rw [TopN_store _ _ _ _ _ _ _ hq]
    exact sortStored_StoreInv _ _ _ _ ih
  | detailed clock db pubkey n result db1 _ hq ih =>
    rw [GetDetailedScores_store _ _ _ _ _ _ _ hq]
    exact sortStored_StoreInv _ _ _ _ ih

theorem filterMap_eq_map {α β : Type} (f : α → Option β) (g : α → β) (l : List α)
    (h : ∀ a ∈ l, f a = some (g a)) : l.filterMap f = l.map g := by
  induction l with
  | nil => rfl
  | cons a as ih =>
    simp [List.filterMap_cons, h a (List.mem_cons_self _ _),
      ih (fun x hx => h x (List.mem_cons_of_mem _ hx))]

/-- The scenario at clock reading 200, queried with the limit 2. -/
theorem scenario_TopN :
    TopN (exactValue (fun _ => 350)) 200 (scenario 0 200) "alice" 2
      = some (["wss://relay.b", "wss://relay.a"],
          sortStored (exactValue (fun _ => 350)) 200 (scenario 0 200) "alice") := by
  rfl

/-- The store left by that query is reachable: two Saves, then TopN. -/
theorem scenario_sorted_reachable :
    Reachable (exactValue (fun _ => 350))
      (sortStored (exactValue (fun _ => 350)) 200 (scenario 0 200) "alice") :=
  Reachable.topN 200 (scenario 0 200) "alice" 2 _ _
    (Reachable.save 200 _ "alice" "wss://relay.b" 0 200
      (Reachable.save 200 _ "alice" "wss://relay.a" 0 100 Reachable.empty))
    scenario_TopN

/-- The entries of that store: the more recent relay first. -/
theorem scenario_sorted_entries :
    (sortStored (exactValue (fun _ => 350)) 200 (scenario 0 200) "alice").OrderedRelaysByPubKey
        "alice"
      = some [{ Relay := 1, Timestamps := Function.update (fun _ => 0) 0 200 },
              { Relay := 0, Timestamps := Function.update (fun _ => 0) 0 100 }] := by
  rfl

/-! ## Claims on the invariants and the frame -/

/-- C12 (no duplicate relays in the interning table). In every store reachable from the
empty store by calls of Save, TopN and GetDetailedScores, RelayBySerial holds no
string twice. -/
theorem table_has_no_duplicates (value : HintKey → Int → Int) (db : HintDB)
    (h : Reachable value db) : db.RelayBySerial.Nodup :=
  (Reachable_StoreInv value db h).1

/-- The table of the scenario after a query. -/
theorem table_has_no_duplicates_witness :
    (sortStored (exactValue (fun _ => 350)) 200 (scenario 0 200) "alice").RelayBySerial.Nodup :=
  table_has_no_duplicates _ _ scenario_sorted_reachable

/-- C13 (serial stability). For every store and every Save: the table is unchanged when
the relay string is in it and grows by exactly that string, at the end, when it is
not; the old table is an initial segment of the new one; every string keeps the
position that interning finds for it, and every index keeps its string. A query that
returns leaves the table as it was. -/
theorem Save_table_append_only (now : Timestamp) (db : HintDB) (pubkey relay : String)
    (key : HintKey) (ts : Timestamp) :
    (relay ∈ db.RelayBySerial →
        (Save now db pubkey relay key ts).RelayBySerial = db.RelayBySerial)
    ∧ (relay ∉ db.RelayBySerial →
        (Save now db pubkey relay key ts).RelayBySerial = db.RelayBySerial ++ [relay])
    ∧ db.RelayBySerial <+: (Save now db pubkey relay key ts).RelayBySerial
    ∧ (∀ (r : String) (i : Nat), slicesIndex db.RelayBySerial r = some i →
        slicesIndex (Save now db pubkey relay key ts).RelayBySerial r = some i)
    ∧ (∀ (i : Int) (r : String), relayAt db.RelayBySerial i = some r →
        relayAt (Save now db pubkey relay key ts).RelayBySerial i = some r)
    ∧ (∀ (value : HintKey → Int → Int) (clock : Timestamp) (q : String) (n : Int)
        (urls : List String) (db1 : HintDB),
        TopN value clock db q n = some (urls, db1) → db1.RelayBySerial = db.RelayBySerial)
    ∧ (∀ (value : HintKey → Int → Int) (clock : Timestamp) (q : String) (n : Int)
        (result : List RelayScores) (db1 : HintDB),
        GetDetailedScores value clock db q n = some (result, db1) →
          db1.RelayBySerial = db.RelayBySerial) := by
  rw [Save_RelayBySerial]
  refine ⟨?_, ?_, ?_, ?_, ?_, ?_, ?_⟩
  · intro hmem
    rcases intern_cases db.RelayBySerial relay with ⟨i, _, hi⟩ | ⟨hn, _⟩
    · rw [hi]
    · exact absurd hmem hn
  · intro hnot
    rcases intern_cases db.RelayBySerial relay with ⟨i, hs, _⟩ | ⟨_, hi⟩
    · have := slicesIndex_none_iff.mpr hnot
      rw [hs] at this
      simp at this
    · rw [hi]
  · rcases intern_cases db.RelayBySerial relay with ⟨i, _, hi⟩ | ⟨_, hi⟩
    · rw [hi]
    · rw [hi]
      exact ⟨[relay], rfl⟩
  · intro r i hr
    rcases intern_cases db.RelayBySerial relay with ⟨j, _, hj⟩ | ⟨_, hj⟩
    · rw [hj]; exact hr
    · rw [hj]; exact slicesIndex_append_of_some hr
  · intro i r hr
    obtain ⟨h0, hget⟩ := relayAt_some hr
    have hlt : i.toNat < db.RelayBySerial.length := by
      by_contra hcon
      rw [List.getElem?_eq_none (by omega)] at hget
      simp at hget
    rw [relayAt_intern_old _ _ i h0 (by omega)]
    exact hr
  · intro value clock q n urls db1 h
    rw [TopN_store _ _ _ _ _ _ _ h, sortStored_RelayBySerial]
  · intro value clock q n result db1 h
    rw [GetDetailedScores_store _ _ _ _ _ _ _ h, sortStored_RelayBySerial]

/-- C14 (one evidence record per relay). In every reachable store no two entries of a
pubkey have the same Relay serial. -/
theorem one_entry_per_serial (value : HintKey → Int → Int) (db : HintDB)
    (h : Reachable value db) (pubkey : String) (entries : List RelayEntry)
    (hentries : db.OrderedRelaysByPubKey pubkey = some entries) :
    entries.Pairwise (fun a b => a.Relay ≠ b.Relay) := by
  have hnd := ((Reachable_StoreInv value db h).2 pubkey entries hentries).1
  exact (List.pairwise_map.mp hnd)

/-- The two entries of the scenario after a query have the serials 1 and 0. -/
theorem one_entry_per_serial_witness :
    List.Pairwise (fun (a b : RelayEntry) => a.Relay ≠ b.Relay)
      [{ Relay := 1, Timestamps := Function.update (fun _ => 0) 0 200 },
       { Relay := 0, Timestamps := Function.update (fun _ => 0) 0 100 }] :=
  one_entry_per_serial _ _ scenario_sorted_reachable "alice" _ scenario_sorted_entries

/-- C15 (stored timestamps never lie in the future). After a sequence of Save calls on
the empty store, made at non-decreasing clock readings, every timestamp slot of every
entry is zero (the category was never observed) or at most the clock reading of the
last call; when that reading is not negative, every slot is at most that reading. -/
theorem stored_timestamps_not_future (calls : List SaveCall) (c : SaveCall)
    (hsorted : calls.Pairwise (fun a b => a.now ≤ b.now))
    (hlast : calls.getLast? = some c) :
    StampsAtMost c.now (runSaves NewHintDB calls)
      ∧ (0 ≤ c.now → TimestampsAtMost c.now (runSaves NewHintDB calls)) := by
  have hfirst : ∃ a rest, calls = a :: rest := by
    cases calls with
    | nil => simp at hlast
    | cons a rest => exact ⟨a, rest, rfl⟩
  obtain ⟨a, rest, rfl⟩ := hfirst
  have hmain : StampsAtMost c.now (runSaves NewHintDB (a :: rest)) := by
    refine runSaves_StampsAtMost (a :: rest) NewHintDB a.now ?_ ?_ hsorted c hlast
    · intro p es h
      simp [NewHintDB] at h
    · intro x hx
      rw [List.pairwise_cons] at hsorted
      simp only [List.mem_cons] at hx
      rcases hx with rfl | hx
      · exact le_refl _
      · exact hsorted.1 x hx
  refine ⟨hmain, ?_⟩
  intro h0 p es hp e he k
  rcases hmain p es hp e he k with hz | hle
  · rw [hz]; exact h0
  · exact hle

/-- The five example calls end at clock reading 1003. -/
theorem stored_timestamps_not_future_witness :
    StampsAtMost 1003 (runSaves NewHintDB exampleCalls)
      ∧ ((0 : Int) ≤ 1003 → TimestampsAtMost 1003 (runSaves NewHintDB exampleCalls)) :=
  stored_timestamps_not_future exampleCalls
    { now := 1003, pubkey := "bob", relay := "wss://relay.c", key := 3, ts := 500 }
    (by simp [exampleCalls]) rfl

/-- C16, as the code behaves (GetDetailedScores record content). For a store that
satisfies the store invariants, any pubkey and a limit `n ≥ 0` within the capacity
that `make([]hints.RelayScores, 0, n)` of line 111 accepts (`n * 56 ≤ 2^48` bytes), at
one clock reading, GetDetailedScores returns `min n len` records with non-increasing Sum fields; the records match, one by
one, the first entries of a permutation of the evidence sequence: Relay is
RelayBySerial at the serial of the entry, Scores are its four timestamps, and Sum is
its Sum. The hypothesis on `value` keeps the comparator free of int64 overflow. -/
theorem GetDetailedScores_records (value : HintKey → Int → Int) (clock : Timestamp)
    (db : HintDB) (pubkey : String) (n : Int)
    (hvalue : ValueBounded value) (hinv : StoreInv db) (hn : 0 ≤ n)
    (hcap : n * relayScoresSize ≤ maxAlloc) :
    ∃ (sorted : List RelayEntry) (result : List RelayScores) (db1 : HintDB),
      GetDetailedScores value clock db pubkey n = some (result, db1)
      ∧ sorted.Perm ((db.OrderedRelaysByPubKey pubkey).getD [])
      ∧ result.length = min n.toNat ((db.OrderedRelaysByPubKey pubkey).getD []).length
      ∧ result.Pairwise (fun a b => b.Sum ≤ a.Sum)
      ∧ List.Forall₂
          (fun (r : RelayScores) (e : RelayEntry) =>
            relayAt db.RelayBySerial e.Relay = some r.Relay
              ∧ r.Scores = e.Timestamps ∧ r.Sum = e.Sum value clock)
          result (sorted.take (min n.toNat ((db.OrderedRelaysByPubKey pubkey).getD []).length)) := by
  cases hm : db.OrderedRelaysByPubKey pubkey with
  | none =>
    refine ⟨[], [], db, ?_, List.Perm.refl _, by simp, List.Pairwise.nil, ?_⟩
    · unfold GetDetailedScores
      rw [if_neg (make_returns hn hcap), hm]
    · simp
  | some entries =>
    have hvalid : ∀ e ∈ entries, (relayAt db.RelayBySerial e.Relay).isSome :=
      fun e he => relayAt_isSome_of_inv hinv hm he
    have hperm := slicesSortFunc_perm (cmpEntries value clock) entries
    have hsorted := slicesSortFunc_sorted (cmpEntries value clock)
      (fun e => e.Sum value clock) (cmpEntries_neg_iff value hvalue clock) entries
    have htake : (slicesSortFunc (cmpEntries value clock) entries).take
          (min n.toNat entries.length)
        = (slicesSortFunc (cmpEntries value clock) entries).take n.toNat := by
      rw [← hperm.length_eq, List.take_eq_take]
      simp
    have hres : ((slicesSortFunc (cmpEntries value clock) entries).take n.toNat).filterMap
          (fun e => (relayAt db.RelayBySerial e.Relay).map (fun url =>
            ({ Relay := url, Scores := e.Timestamps, Sum := e.Sum value clock } :
              RelayScores)))
        = ((slicesSortFunc (cmpEntries value clock) entries).take n.toNat).map
            (fun e => scoresOf value clock ((relayAt db.RelayBySerial e.Relay).getD "") e) := by
      apply filterMap_eq_map
      intro e he
      obtain ⟨url, hurl⟩ := Option.isSome_iff_exists.mp
        (hvalid e (hperm.mem_iff.mp (List.mem_of_mem_take he)))
      rw [hurl]
      rfl
    refine ⟨slicesSortFunc (cmpEntries value clock) entries, _, _,
      GetDetailedScores_eq value clock db pubkey n entries hm hvalid hn hcap, hperm, ?_, ?_, ?_⟩
    · rw [hres]
      simp only [List.length_map, List.length_take, Option.getD_some, hperm.length_eq]
    · rw [hres, List.pairwise_map]
      exact List.Pairwise.sublist (List.take_sublist _ _) hsorted
    · rw [hres, Option.getD_some, htake, List.forall₂_map_left_iff, List.forall₂_same]
      intro e he
      obtain ⟨url, hurl⟩ := Option.isSome_iff_exists.mp
        (hvalid e (hperm.mem_iff.mp (List.mem_of_mem_take he)))
      rw [hurl]
      exact ⟨rfl, rfl, rfl⟩

/-- The best record of the scenario at clock reading 200. -/
theorem GetDetailedScores_records_witness :
    ∃ (sorted : List RelayEntry) (result : List RelayScores) (db1 : HintDB),
      GetDetailedScores (exactValue (fun _ => 350)) 200 (scenario 0 200) "alice" 1
        = some (result, db1)
      ∧ sorted.Perm (((scenario 0 200).OrderedRelaysByPubKey "alice").getD [])
      ∧ result.length
          = min (1 : Int).toNat (((scenario 0 200).OrderedRelaysByPubKey "alice").getD []).length
      ∧ result.Pairwise (fun a b => b.Sum ≤ a.Sum)
      ∧ List.Forall₂
          (fun (r : RelayScores) (e : RelayEntry) =>
            relayAt (scenario 0 200).RelayBySerial e.Relay = some r.Relay
              ∧ r.Scores = e.Timestamps ∧ r.Sum = e.Sum (exactValue (fun _ => 350)) 200)
          result
          (sorted.take (min (1 : Int).toNat
            (((scenario 0 200).OrderedRelaysByPubKey "alice").getD []).length)) :=
  GetDetailedScores_records (exactValue (fun _ => 350)) 200 (scenario 0 200) "alice" 1
    (exactValue_bounded _ (fun _ => by decide))
    (Save_StoreInv _ _ _ _ _ _ (Save_StoreInv _ _ _ _ _ _ NewHintDB_inv)) (by decide)
    (by decide)

/-- C16 fails as stated: for the limit `2^62`, which is `≥ 0`, on the store of the
scenario, which has the store invariants, `make([]hints.RelayScores, 0, n)` of line
111 panics (makeslice: cap out of range), so GetDetailedScores returns no record. -/
theorem GetDetailedScores_panics_on_huge_limit :
    StoreInv (scenario 0 200)
      ∧ (0 : Int) ≤ 2 ^ 62
      ∧ GetDetailedScores (exactValue (fun _ => 350)) 200 (scenario 0 200) "alice" (2 ^ 62)
          = none :=
  ⟨Save_StoreInv _ _ _ _ _ _ (Save_StoreInv _ _ _ _ _ _ NewHintDB_inv), by decide, rfl⟩

/-- C17, as the code behaves (no operation fails). In every reachable store, for every
pubkey and every limit `n ≥ 0` for which the allocation of a slice of capacity `n`
succeeds (`n * 16 ≤ 2^48` bytes for `make([]string, 0, n)` of TopN, `n * 56 ≤ 2^48`
bytes for `make([]hints.RelayScores, 0, n)` of GetDetailedScores), the query returns a
result: no index is out of range. A Save whose category is one of `0..3` returns as
well. -/
theorem operations_return (value : HintKey → Int → Int) (clock : Timestamp) (db : HintDB)
    (pubkey : String) (n : Int) (h : Reachable value db) (hn : 0 ≤ n) :
    (n * stringSize ≤ maxAlloc →
      ∃ (urls : List String) (db1 : HintDB), TopN value clock db pubkey n = some (urls, db1))
    ∧ (n * relayScoresSize ≤ maxAlloc →
      ∃ (result : List RelayScores) (db1 : HintDB),
        GetDetailedScores value clock db pubkey n = some (result, db1))
    ∧ ∀ (now : Timestamp) (q relay : String) (key : Int) (ts : Timestamp),
        0 ≤ key → key < 4 → ∃ db1, SaveInt now db q relay key ts = some db1 := by
  have hinv := Reachable_StoreInv value db h
  refine ⟨?_, ?_, ?_⟩
  · intro hcap
    cases hm : db.OrderedRelaysByPubKey pubkey with
    | none =>
      refine ⟨[], db, ?_⟩
      unfold TopN
      rw [if_neg (make_returns hn hcap), hm]
    | some entries =>
      have hvalid : ∀ e ∈ entries, (relayAt db.RelayBySerial e.Relay).isSome :=
        fun e he => relayAt_isSome_of_inv hinv hm he
      by_cases h0 : n = 0
      · subst h0
        exact ⟨_, _, TopN_of_zero value clock db pubkey entries hm hvalid⟩
      · exact ⟨_, _, TopN_eq value clock db pubkey n entries hm hvalid (by omega) hcap⟩
  · intro hcap
    cases hm : db.OrderedRelaysByPubKey pubkey with
    | none =>
      refine ⟨[], db, ?_⟩
      unfold GetDetailedScores
      rw [if_neg (make_returns hn hcap), hm]
    | some entries =>
      have hvalid : ∀ e ∈ entries, (relayAt db.RelayBySerial e.Relay).isSome :=
        fun e he => relayAt_isSome_of_inv hinv hm he
      exact ⟨_, _, GetDetailedScores_eq value clock db pubkey n entries hm hvalid hn hcap⟩
  · intro now q relay key ts h0 h4
    unfold SaveInt
    rw [dif_pos ⟨h0, h4⟩]
    exact ⟨_, rfl⟩

/-- The limit 2 on the store of the scenario after a query. -/
theorem operations_return_witness :
    (∃ (urls : List String) (db1 : HintDB),
        TopN (exactValue (fun _ => 350)) 300
          (sortStored (exactValue (fun _ => 350)) 200 (scenario 0 200) "alice") "alice" 2
          = some (urls, db1))
    ∧ (∃ (result : List RelayScores) (db1 : HintDB),
        GetDetailedScores (exactValue (fun _ => 350)) 300
          (sortStored (exactValue (fun _ => 350)) 200 (scenario 0 200) "alice") "alice" 2
          = some (result, db1))
    ∧ ∀ (now : Timestamp) (q relay : String) (key : Int) (ts : Timestamp),
        0 ≤ key → key < 4 →
        ∃ db1, SaveInt now
          (sortStored (exactValue (fun _ => 350)) 200 (scenario 0 200) "alice")
          q relay key ts = some db1 :=
  ⟨(operations_return _ 300 _ "alice" 2 scenario_sorted_reachable (by decide)).1 (by decide),
    (operations_return _ 300 _ "alice" 2 scenario_sorted_reachable (by decide)).2.1
      (by decide),
    (operations_return _ 300 _ "alice" 2 scenario_sorted_reachable (by decide)).2.2⟩

/-- C17 fails as stated: with the limit -1 the allocations `make([]string, 0, n)` of
line 74 and `make([]hints.RelayScores, 0, n)` of line 111 panic, on the empty store
already. -/
theorem query_panics_on_negative_limit :
    TopN (fun _ _ => 0) 1000 NewHintDB "alice" (-1) = none
      ∧ GetDetailedScores (fun _ _ => 0) 1000 NewHintDB "alice" (-1) = none := by
  constructor <;> rfl

/-- C18 (the sort done by a query persists and touches nothing else). For a known pubkey
and a call of TopN or GetDetailedScores that returns, the sequence stored for the
pubkey after the call is a permutation of the sequence before it, in non-increasing
order of the scores at the clock reading of the call; the relay table and the
sequences of all other pubkeys are as before. The hypothesis on `value` keeps the
comparator free of int64 overflow. -/
theorem query_sort_persists (value : HintKey → Int → Int) (clock : Timestamp) (db : HintDB)
    (pubkey : String) (n : Int) (entries : List RelayEntry) (db1 : HintDB)
    (hvalue : ValueBounded value)
    (hknown : db.OrderedRelaysByPubKey pubkey = some entries)
    (hcall : (∃ urls, TopN value clock db pubkey n = some (urls, db1))
      ∨ (∃ result, GetDetailedScores value clock db pubkey n = some (result, db1))) :
    ∃ sorted : List RelayEntry,
      db1.OrderedRelaysByPubKey pubkey = some sorted
      ∧ sorted.Perm entries
      ∧ sorted.Pairwise (fun a b => b.Sum value clock ≤ a.Sum value clock)
      ∧ db1.RelayBySerial = db.RelayBySerial
      ∧ ∀ q, q ≠ pubkey → db1.OrderedRelaysByPubKey q = db.OrderedRelaysByPubKey q := by
  have hdb1 : db1 = sortStored value clock db pubkey := by
    rcases hcall with ⟨urls, h⟩ | ⟨result, h⟩
    · exact TopN_store _ _ _ _ _ _ _ h
    · exact GetDetailedScores_store _ _ _ _ _ _ _ h
  subst hdb1
  refine ⟨slicesSortFunc (cmpEntries value clock) entries, ?_,
    slicesSortFunc_perm _ _,
    slicesSortFunc_sorted (cmpEntries value clock) (fun e => e.Sum value clock)
      (cmpEntries_neg_iff value hvalue clock) entries,
    sortStored_RelayBySerial _ _ _ _,
    fun q hq => sortStored_other _ _ _ _ _ hq⟩
  rw [sortStored_self, hknown]
  rfl

/-- The scenario at clock reading 200: TopN stores the more recent relay first. -/
theorem query_sort_persists_witness :
    ∃ sorted : List RelayEntry,
      (sortStored (exactValue (fun _ => 350)) 200 (scenario 0 200)
          "alice").OrderedRelaysByPubKey "alice" = some sorted
      ∧ sorted.Perm [{ Relay := 0, Timestamps := Function.update (fun _ => 0) 0 100 },
                     { Relay := 1, Timestamps := Function.update (fun _ => 0) 0 200 }]
      ∧ sorted.Pairwise (fun a b => b.Sum (exactValue (fun _ => 350)) 200
          ≤ a.Sum (exactValue (fun _ => 350)) 200)
      ∧ (sortStored (exactValue (fun _ => 350)) 200 (scenario 0 200) "alice").RelayBySerial
          = (scenario 0 200).RelayBySerial
      ∧ ∀ q, q ≠ "alice" →
          (sortStored (exactValue (fun _ => 350)) 200 (scenario 0 200)
            "alice").OrderedRelaysByPubKey q = (scenario 0 200).OrderedRelaysByPubKey q :=
  query_sort_persists (exactValue (fun _ => 350)) 200 (scenario 0 200) "alice" 2 _ _
    (exactValue_bounded _ (fun _ => by decide))
    (scenario_store 0 200 (by decide)).2
    (Or.inl ⟨_, scenario_TopN⟩)

/-- C19 (frame of Save). For every store and every Save: the sequences of the other
pubkeys are unchanged; the sequence of the pubkey is unchanged, or has one new entry
at its end, which names the relay and has zero in every slot but the one of the
category, or differs in one entry, the one that names the relay, and there only in
the slot of the category, which becomes strictly newer. The sequence never gets
shorter, and every entry keeps its position, its serial and its timestamps of the
other categories. -/
theorem Save_frame (now : Timestamp) (db : HintDB) (pubkey relay : String)
    (key : HintKey) (ts : Timestamp) :
    (∀ q, q ≠ pubkey →
        (Save now db pubkey relay key ts).OrderedRelaysByPubKey q
          = db.OrderedRelaysByPubKey q)
    ∧ ((Save now db pubkey relay key ts).OrderedRelaysByPubKey pubkey
          = db.OrderedRelaysByPubKey pubkey
       ∨ (∃ e : RelayEntry,
            (Save now db pubkey relay key ts).OrderedRelaysByPubKey pubkey
              = some ((db.OrderedRelaysByPubKey pubkey).getD [] ++ [e])
            ∧ relayAt (Save now db pubkey relay key ts).RelayBySerial e.Relay = some relay
            ∧ e.Timestamps key = min ts now
            ∧ ∀ k, k ≠ key → e.Timestamps k = 0)
       ∨ (∃ (i : Fin ((db.OrderedRelaysByPubKey pubkey).getD []).length) (e : RelayEntry),
            (Save now db pubkey relay key ts).OrderedRelaysByPubKey pubkey
              = some (((db.OrderedRelaysByPubKey pubkey).getD []).set i e)
            ∧ relayAt (Save now db pubkey relay key ts).RelayBySerial e.Relay = some relay
            ∧ e.Relay = (((db.OrderedRelaysByPubKey pubkey).getD [])[i]).Relay
            ∧ (((db.OrderedRelaysByPubKey pubkey).getD [])[i]).Timestamps key < min ts now
            ∧ e.Timestamps key = min ts now
            ∧ ∀ k, k ≠ key →
                e.Timestamps k = (((db.OrderedRelaysByPubKey pubkey).getD [])[i]).Timestamps k))
    ∧ ((db.OrderedRelaysByPubKey pubkey).getD []).length
          ≤ (((Save now db pubkey relay key ts).OrderedRelaysByPubKey pubkey).getD []).length
    ∧ ∀ (j : Nat) (e : RelayEntry),
        ((db.OrderedRelaysByPubKey pubkey).getD [])[j]? = some e →
        ∃ e1 : RelayEntry,
          (((Save now db pubkey relay key ts).OrderedRelaysByPubKey pubkey).getD [])[j]?
              = some e1
          ∧ e1.Relay = e.Relay
          ∧ ∀ k, k ≠ key → e1.Timestamps k = e.Timestamps k := by
  have hnew : relayAt (Save now db pubkey relay key ts).RelayBySerial
      (intern db.RelayBySerial relay).1 = some relay := by
    rw [Save_RelayBySerial]
    exact relayAt_intern_fst _ _
  refine ⟨fun q hq => Save_other now db pubkey relay key ts q hq, ?_, ?_, ?_⟩
  · rcases Save_cases now db pubkey relay key ts with hc | hc | ⟨i, hrel, hlt, hc⟩
    · exact Or.inl hc
    · refine Or.inr (Or.inl ⟨_, hc, hnew, ?_, ?_⟩)
      · simp only [Function.update_same]
      · intro k hk
        simp only [Function.update_noteq hk]
    · refine Or.inr (Or.inr ⟨i, _, hc, ?_, rfl, hlt, ?_, ?_⟩)
      · simp only
        rw [hrel]
        exact hnew
      · simp only [Function.update_same]
      · intro k hk
        simp only [Function.update_noteq hk]
  · rcases Save_cases now db pubkey relay key ts with hc | hc | ⟨i, _, _, hc⟩
    · rw [hc]
    · rw [hc]; simp
    · rw [hc]; simp
  · intro j e hj
    rcases Save_cases now db pubkey relay key ts with hc | hc | ⟨i, _, _, hc⟩
    · rw [hc]
      exact ⟨e, hj, rfl, fun _ _ => rfl⟩
    · rw [hc]
      refine ⟨e, ?_, rfl, fun _ _ => rfl⟩
      simp only [Option.getD_some]
      have hlt : j < ((db.OrderedRelaysByPubKey pubkey).getD []).length := by
        by_contra hcon
        rw [List.getElem?_eq_none (by omega)] at hj
        simp at hj
      rw [List.getElem?_append_left hlt]
      exact hj
    · rw [hc]
      simp only [Option.getD_some]
      by_cases hij : (i : Nat) = j
      · subst hij
        have hlt : (i : Nat) < ((db.OrderedRelaysByPubKey pubkey).getD []).length := i.2
        rw [List.getElem?_eq_getElem hlt] at hj
        simp only [Option.some.injEq] at hj
        refine ⟨_, List.getElem?_set_eq_of_lt _ hlt, ?_, ?_⟩
        · simp only [Fin.getElem_fin]
          rw [hj]
        · intro k hk
          simp only [Fin.getElem_fin, Function.update_noteq hk]
          rw [hj]
      · refine ⟨e, ?_, rfl, fun _ _ => rfl⟩
        rw [List.getElem?_set_ne hij]
        exact hj

/-- C20 (every stored serial is a valid index). In every reachable store every entry of
every pubkey has `0 ≤ Relay < len(RelayBySerial)`, so the expression
`db.RelayBySerial[re.Relay]` of TopN, GetDetailedScores and PrintScores finds a
string. -/
theorem serials_in_range (value : HintKey → Int → Int) (db : HintDB)
    (h : Reachable value db) (pubkey : String) (entries : List RelayEntry)
    (hentries : db.OrderedRelaysByPubKey pubkey = some entries)
    (e : RelayEntry) (he : e ∈ entries) :
    0 ≤ e.Relay ∧ e.Relay < db.RelayBySerial.length
      ∧ ∃ url, relayAt db.RelayBySerial e.Relay = some url := by
  have hinv := Reachable_StoreInv value db h
  obtain ⟨h0, h1⟩ := (hinv.2 pubkey entries hentries).2 e he
  exact ⟨h0, h1, Option.isSome_iff_exists.mp (relayAt_isSome_of_inv hinv hentries he)⟩

/-- The entry of serial 1 in the scenario after a query. -/
theorem serials_in_range_witness :
    (0 : Int) ≤ 1
      ∧ (1 : Int) < (sortStored (exactValue (fun _ => 350)) 200 (scenario 0 200)
          "alice").RelayBySerial.length
      ∧ ∃ url, relayAt (sortStored (exactValue (fun _ => 350)) 200 (scenario 0 200)
          "alice").RelayBySerial 1 = some url :=
  serials_in_range _ _ scenario_sorted_reachable "alice" _ scenario_sorted_entries
    { Relay := 1, Timestamps := Function.update (fun _ => 0) 0 200 }
    (List.mem_cons_self _ _)

end Memoryh
